import Mathlib

/-!
Verification development for the CuteText buffer/worker/job core.

Shallow embedding of the functions of
`src/cutetext/src/cookie.cxx`, `cutetext_buffers.cxx`, `cutetext_io.cxx`,
`worker.h` and `job_queue.h` into Lean, with theorems checking the
natural-language specification against the code.
-/

namespace CuteText

/-! ## Encoding-cookie scanning (cookie.cxx)

Strings are modelled as `List Char`; `std::string::operator[]` at the size
position yields the NUL character, modelled by `charAt` with default
`Char.ofNat 0`.  `std::string::find` is modelled by `findFrom`, which returns
the first index at which the pattern occurs. -/

/-- Unicode mode of a buffer (`UniMode`); `kUniCookie` means UTF-8 forced by a
coding cookie. -/
inductive UniMode where
  | kUni8Bit
  | kUni16BE
  | kUni16LE
  | kUniUTF8
  | kUniCookie
deriving DecidableEq, Repr

/-- `IsEncodingChar` from cookie.cxx: characters permitted inside an encoding
name. -/
def IsEncodingChar (ch : Char) : Bool :=
  (ch == '_') || (ch == '-') || (ch == '.') ||
  (decide ('a' ≤ ch) && decide (ch ≤ 'z')) ||
  (decide ('A' ≤ ch) && decide (ch ≤ 'Z')) ||
  (decide ('0' ≤ ch) && decide (ch ≤ '9'))

/-- `IsSpaceChar` from cookie.cxx: space or tab. -/
def IsSpaceChar (ch : Char) : Bool :=
  (ch == ' ') || (ch == Char.ofNat 9)

/-- `LowerCaseAZ` (string_helpers): lower-case the ASCII letters A–Z. -/
def lowerCaseAZ (s : List Char) : List Char :=
  s.map fun c =>
    if decide ('A' ≤ c) && decide (c ≤ 'Z') then Char.ofNat (c.toNat + 32) else c

/-- Character of `s` at index `i`, with `operator[]`-at-size semantics:
out of range reads give NUL. -/
def charAt (s : List Char) (i : Nat) : Char := s.getD i (Char.ofNat 0)

/-- Whether the pattern `pat` occurs in `s` starting exactly at index `i`. -/
def matchesAt (s pat : List Char) (i : Nat) : Bool :=
  (s.drop i).take pat.length == pat

/-- Iterations of the search loop of `std::string::find`: `fuel` counts the
remaining candidate positions (`s.length + 1 - i`). -/
def findFromAux (s pat : List Char) : Nat → Nat → Option Nat
  | 0, _ => none
  | fuel + 1, i => if matchesAt s pat i then some i else findFromAux s pat fuel (i + 1)

/-- `std::string::find(pat, i)`: the first index `≥ i` at which `pat` occurs
in `s`, or `none` (npos). -/
def findFrom (s pat : List Char) (i : Nat) : Option Nat :=
  findFromAux s pat (s.length + 1 - i) i

/-- Length of the longest run of characters satisfying `p` at the head of a
list; the body of the character-scanning while loops. -/
def countWhile (p : Char → Bool) : List Char → Nat
  | [] => 0
  | c :: cs => if p c then countWhile p cs + 1 else 0

/-- The while loop of `CookieValue` skipping spaces/tabs from `pos`
(`while pos < s.length ∧ IsSpaceChar s[pos] do pos++`). -/
def skipSpaces (s : List Char) (pos : Nat) : Nat :=
  pos + countWhile IsSpaceChar (s.drop pos)

/-- The while loop of `CookieValue` scanning the run of encoding characters
from `pos`. -/
def scanEncoding (s : List Char) (pos : Nat) : Nat :=
  pos + countWhile IsEncodingChar (s.drop pos)

/-- The value test of `CookieValue` performed at position `posCoding`, the
index just past an occurrence of `coding`: a `:` or `=` separator, an
optional quote, spaces skipped, the run of encoding characters lower-cased
and compared with `utf-8`. -/
def cookieAt (s : List Char) (posCoding : Nat) : Bool :=
  if (charAt s posCoding == ':') || (charAt s posCoding == '=') then
    let p1 := posCoding + 1
    let p2 := if (charAt s p1 == Char.ofNat 34) || (charAt s p1 == Char.ofNat 39)
      then p1 + 1 else p1
    let p3 := skipSpaces s p2
    let e := scanEncoding s p3
    lowerCaseAZ ((s.drop p3).take (e - p3)) == "utf-8".toList
  else false

/-- `CookieValue` from cookie.cxx: find the first occurrence of `coding` and
test the cookie value there. -/
def CookieValue (s : List Char) : UniMode :=
  match findFrom s ("coding".toList) 0 with
  | some p => if cookieAt s (p + 6) then .kUniCookie else .kUni8Bit
  | none => .kUni8Bit

/-- Whether the character of `buf` at `j` is CR or LF. -/
def isEolAt (buf : List Char) (j : Nat) : Bool :=
  (charAt buf j == Char.ofNat 13) || (charAt buf j == Char.ofNat 10)

/-- Iterations of the first while loop of `ExtractLine`; `fuel` counts the
remaining positions below `len`. -/
def scanToEolAux (buf : List Char) : Nat → Nat → Nat
  | 0, pos => pos
  | fuel + 1, pos => if isEolAt buf pos then pos else scanToEolAux buf fuel (pos + 1)

/-- The first while loop of `ExtractLine`: advance `pos` while below `len`
and not at CR or LF. -/
def scanToEol (buf : List Char) (len pos : Nat) : Nat :=
  scanToEolAux buf (len - pos) pos

/-- `ExtractLine` from cookie.cxx: the first line of `buf` (limited to `len`
characters), including its CR, LF or CRLF delimiter when present. -/
def ExtractLine (buf : List Char) (len : Nat) : List Char :=
  if 0 < len then
    let e1 := scanToEol buf len 0
    let e2 := if decide (e1 + 1 < len) && (charAt buf e1 == Char.ofNat 13)
        && (charAt buf (e1 + 1) == Char.ofNat 10) then e1 + 1 else e1
    let e3 := if e2 < len then e2 + 1 else e2
    buf.take e3
  else []

/-- The specification's reading of a cookie line as frozen in the claim:
the line *contains* the token `coding` followed by `:` or `=` (optionally
quoted) whose value, trimmed, lower-cased and restricted to the encoding
characters, equals `utf-8`. -/
def specLineCookie (s : List Char) : Prop :=
  ∃ i < s.length, matchesAt s ("coding".toList) i = true ∧ cookieAt s (i + 6) = true

instance (s : List Char) : Decidable (specLineCookie s) := by
  unfold specLineCookie; infer_instance

/-- The amended reading: a line carries the cookie when the *first*
occurrence of `coding` in it is followed by `:` or `=` and the `utf-8`
value. -/
def specLineCookieFirst (s : List Char) : Prop :=
  ∃ i, matchesAt s ("coding".toList) i = true ∧
    (∀ j < i, matchesAt s ("coding".toList) j = false) ∧
    cookieAt s (i + 6) = true

/-- `CodingCookieValue` from cookie.cxx: test line 1, and line 2 only when
line 1 gave `kUni8Bit`. -/
def CodingCookieValue (buf : List Char) (len : Nat) : UniMode :=
  let l1 := ExtractLine buf len
  let unicodeMode := CookieValue l1
  match unicodeMode with
  | .kUni8Bit => CookieValue (ExtractLine (buf.drop l1.length) (len - l1.length))
  | u => u

/-- The concrete input of the cookie counterexample: the first occurrence of
`coding` (inside `xcoding`) is not followed by a separator, while a later
occurrence carries a well-formed `utf-8` value. -/
def cookieCexBuf : List Char := "xcoding coding: utf-8\n".toList

/-! ## Session line lists (cutetext_buffers.cxx, LinesFromString /
StringFromLines)

Line numbers are 0-based internally and 1-based in session files. -/

/-- The white-space predicate of C `isspace` used by `atoi`. -/
def cIsSpace (c : Char) : Bool :=
  (c == ' ') || (c == Char.ofNat 9) || (c == Char.ofNat 10) ||
  (c == Char.ofNat 11) || (c == Char.ofNat 12) || (c == Char.ofNat 13)

/-- ASCII decimal digit test. -/
def isDigitChar (c : Char) : Bool :=
  decide ('0' ≤ c) && decide (c ≤ '9')

/-- The digit-consuming loop of C `atoi`: accumulate decimal digits until
the first non-digit. -/
def atoiDigits : List Char → Nat → Nat
  | [], acc => acc
  | c :: cs, acc =>
    if isDigitChar c then atoiDigits cs (acc * 10 + (c.toNat - 48)) else acc

/-- The sign handling of C `atoi`, applied after white space is skipped. -/
def atoiSigned : List Char → Int
  | [] => 0
  | c :: cs =>
    if c == '-' then - (atoiDigits cs 0 : Int)
    else if c == '+' then (atoiDigits cs 0 : Int)
    else (atoiDigits (c :: cs) 0 : Int)

/-- C `atoi`: skip white space, consume an optional sign and then decimal
digits. -/
def atoi (s : List Char) : Int :=
  atoiSigned (s.dropWhile cIsSpace)

/-- Decimal digits of a natural number, most significant first. -/
def natToChars (n : Nat) : List Char :=
  if n < 10 then [Char.ofNat (48 + n)]
  else natToChars (n / 10) ++ [Char.ofNat (48 + n % 10)]
termination_by n
decreasing_by simp_wf; exact Nat.div_lt_self (by omega) (by omega)

/-- `StdStringFromInteger` (string_helpers): `sprintf("%0d", i)`. -/
def StdStringFromInteger (v : Int) : List Char :=
  if v < 0 then '-' :: natToChars v.natAbs else natToChars v.toNat

/-- `10 ^ (number of decimal digits of n)`; measures the shift produced by
parsing the digits of `n` into an accumulator. -/
def tenPow (n : Nat) : Nat :=
  if n < 10 then 10 else 10 * tenPow (n / 10)
termination_by n
decreasing_by simp_wf; exact Nat.div_lt_self (by omega) (by omega)

/-- The rendering of every line after the first: a comma followed by the
1-based number. -/
def tailRender : List Int → List Char
  | [] => []
  | l :: ls => ',' :: (StdStringFromInteger (l + 1) ++ tailRender ls)

/-- One iteration of the `LinesFromString` loop per fuel unit: read a number
at `start`, then continue after the next comma. -/
def linesFromStringAux (s : List Char) : Nat → Nat → List Int
  | 0, start => [atoi (s.drop start) - 1]
  | fuel + 1, start =>
    let line := atoi (s.drop start) - 1
    match findFrom s [','] start with
    | some posComma => line :: linesFromStringAux s fuel (posComma + 1)
    | none => [line]

/-- `LinesFromString` from cutetext_buffers.cxx: parse a comma-separated
list of 1-based line numbers into 0-based lines. -/
def LinesFromString (s : List Char) : List Int :=
  if s.length ≠ 0 then linesFromStringAux s (s.length + 1) 0 else []

/-- `StringFromLines` from cutetext_buffers.cxx: render 0-based lines as a
comma-separated list of 1-based numbers. -/
def StringFromLines (lines : List Int) : List Char :=
  lines.foldl
    (fun result line =>
      (if result.length ≠ 0 then result ++ [','] else result) ++
        StdStringFromInteger (line + 1))
    []

/-! ## Worker cancellation (worker.h) -/

/-- The four fields of `Worker`, all read and written under its lock. -/
structure WorkerState where
  completed : Bool
  cancelling : Bool
  jobSize : Nat
  jobProgress : Nat
deriving DecidableEq, Repr

/-- The busy-wait loop of `Worker::Cancel`: at iteration `n` the loop takes
the lock and observes the value `reads n` of the `completed` flag; it
returns the index of the first iteration that observes `true`.  `fuel`
bounds the number of iterations modelled; `none` means the call has not
returned within that many polls. -/
def cancelWait (reads : Nat → Bool) : Nat → Nat → Option Nat
  | 0, _ => none
  | fuel + 1, n => if reads n then some n else cancelWait reads fuel (n + 1)

/-- `Worker::Cancel`: set `cancelling := true` under the lock, then poll the
completion flag under the lock until it is observed `true`.  The result is
the worker state after the write together with the iteration at which the
poll loop returned. -/
def WorkerCancel (w : WorkerState) (reads : Nat → Bool) (fuel : Nat) :
    Option (WorkerState × Nat) :=
  let w1 := { w with cancelling := true }
  match cancelWait reads fuel 0 with
  | some n => some (w1, n)
  | none => none

/-! ## Job queue (job_queue.h) -/

/-- A `Job`: command text, working directory, subsystem tag, piped input and
flags. -/
structure Job where
  command : List Char
  directory : Nat
  jobType : Nat
  input : List Char
  flags : Nat
deriving DecidableEq, Repr

/-- `JobQueue::commandMax`. -/
def commandMax : Nat := 2

/-- Execution state of the job subsystem.  Queue entries carry their
enqueue sequence number so that the FIFO property can be stated. -/
structure QState where
  queue : List (Nat × Job)
  running : Option (Nat × Job)
  executedRev : List (Nat × Job)
  cancelled : Bool
  nextSeq : Nat
deriving DecidableEq, Repr

/-- Events driving the job subsystem: enqueue, start of the head job,
completion of the running job, and cancellation (`StopExecute`). -/
inductive QEv where
  | addCommand (j : Job)
  | startNext
  | finishJob
  | stopExecute
deriving DecidableEq, Repr

/-- Modelled from the spec: the bodies of the `JobQueue` methods
(`AddCommand`, `ClearJobs`, `SetExecuting`, `SetCancelFlag`, `Cancelled`)
are declared in `src/cutetext/src/job_queue.h` but their definitions are
not among the sources.  Following §4.5 of the spec and the header: the
queue is a bounded FIFO of at most `commandMax` jobs; at most one job is
executing at a time; the controller starts the next queued job only when
idle; a cancel request is observed before a queued job starts, never
pre-emptively. -/
def qstep (s : QState) : QEv → QState
  | .addCommand j =>
    if s.queue.length < commandMax then
      { s with queue := s.queue ++ [(s.nextSeq, j)], nextSeq := s.nextSeq + 1 }
    else s
  | .startNext =>
    if s.running.isNone && !s.cancelled then
      match s.queue with
      | [] => s
      | q :: rest => { s with running := some q, queue := rest }
    else s
  | .finishJob =>
    match s.running with
    | some q => { s with running := none, executedRev := q :: s.executedRev }
    | none => s
  | .stopExecute => { s with cancelled := true }

/-- The empty job subsystem. -/
def qinit : QState := ⟨[], none, [], false, 0⟩

/-- Run a sequence of job events. -/
def qrun (s : QState) (evs : List QEv) : QState := evs.foldl qstep s

/-- Sequence numbers of all admitted jobs in execution order: already
executed, then running, then still queued. -/
def seqList (s : QState) : List Nat :=
  s.executedRev.reverse.map Prod.fst ++ (s.running.map Prod.fst).toList ++
    s.queue.map Prod.fst

/-- Sequence numbers of the jobs that have started (running or finished). -/
def startedSeqs (s : QState) : List Nat :=
  (s.running.map Prod.fst).toList ++ s.executedRev.map Prod.fst

/-! ## Generic helper: the MoveToStackTop loop

`BufferList::MoveToStackTop` shifts the top chunk of the stack down over
the highest occurrence of `index` and writes `index` at the top.  On a list
this removes the last occurrence of the value among the cells after the
head (the loop stops at `i = 1`) and places it in front; with no such
occurrence only the head cell is overwritten. -/
def removeLastOccBy {α : Type} (f : α → Nat) : List α → Nat → Option (α × List α)
  | [], _ => none
  | x :: xs, v =>
    match removeLastOccBy f xs v with
    | some (q, rest) => some (q, x :: rest)
    | none => if f x = v then some (x, xs) else none

/-! ## File load/save paths (cutetext_io.cxx)

The controller state is reduced to the fields those paths read or write;
calls into the text surface, the extender and the window system are logged
as events. -/

namespace Io

/-- `Buffer::lifeState_`. -/
inductive Life where
  | kEmpty | kReading | kReadAll | kOpen
deriving DecidableEq, Repr

/-- The message boxes shown by the modelled paths. -/
inductive Msg where
  | couldNotOpen
  | notYetLoaded
  | alreadyBeingSaved
  | modifiedOutside
  | couldNotSaveAskRename
  | threadCouldNotStart
  | couldNotFindBuffer
  | failedSaveMessage
deriving DecidableEq, Repr

/-- Side effects on the text surface / extender / shell, logged in order. -/
inductive Ev where
  | beginUndoAction | endUndoAction | clearAll | styleSetBack
  | setReadOnly (b : Bool) | setSavePoint | allocateDoc | addText
  | performOnNewThread | setStatus | completeOpen | menus | statusBar
  | reloadProperties | readProperties | onSaveExtender | executeJobs
  | quitProgram | removeFile | prepareForSave | windowName
  | switchDocument | setUndoCollection
deriving DecidableEq, Repr

/-- A `FileWorker` as seen by the main-thread handlers: its identity plus
the fields read on completion. -/
structure FW where
  wid : Nat
  isLoading : Bool
  err : Nat
  cancelling : Bool
  completed : Bool
  visibleProgress : Bool
  path : Nat
  unicodeMode : UniMode
  resultDoc : Nat
deriving DecidableEq, Repr

/-- `Buffer` (cutetext_base.h), restricted to the fields the io paths
touch. -/
structure Buf where
  fileId : Nat
  untitled : Bool
  doc : Nat
  isDirty : Bool
  isReadOnly : Bool
  failedSave : Bool
  lifeState : Life
  unicodeMode : UniMode
  fileModTime : Nat
  fileModLastAsk : Nat
  documentModTime : Nat
  futureDo : Nat
  worker : Option FW
deriving DecidableEq, Repr

/-- `Buffer::Init()`. -/
def Buf.init : Buf :=
  ⟨0, true, 0, false, false, false, .kEmpty, .kUni8Bit, 0, 0, 0, 0, none⟩

/-- `Buffer::SetTimeFromFile`: refresh the three time stamps from the file
and clear `failedSave`. -/
def Buf.setTimeFromFile (t : Nat) (b : Buf) : Buf :=
  { b with fileModTime := t, fileModLastAsk := t, documentModTime := t,
           failedSave := false }

/-- `Buffer::CompleteStoring`: release a storing worker, then
`SetTimeFromFile`. -/
def Buf.completeStoring (t : Nat) (b : Buf) : Buf :=
  let b1 := match b.worker with
    | some w => if !w.isLoading then { b with worker := none } else b
    | none => b
  Buf.setTimeFromFile t b1

/-- `Buffer::CompleteLoading`: the state becomes `kOpen` and a loading
worker is released. -/
def Buf.completeLoading (b : Buf) : Buf :=
  let b1 := { b with lifeState := Life.kOpen }
  match b1.worker with
  | some w => if w.isLoading then { b1 with worker := none } else b1
  | none => b1

/-- Attach a fresh `FileLoader` to a buffer
(`CurrentBuffer()->pFileWorker = new FileLoader(...)`). -/
def Buf.attachLoader (wid : Nat) (b : Buf) : Buf :=
  { b with worker := some (FW.mk wid true 0 false false true b.fileId UniMode.kUni8Bit 0) }

/-- Attach a fresh `FileStorer` to a buffer
(`CurrentBuffer()->pFileWorker = new FileStorer(...)`). -/
def Buf.attachStorer (wid : Nat) (visibleProgress : Bool) (path : Nat) (b : Buf) : Buf :=
  { b with worker := some (FW.mk wid false 0 false false visibleProgress path b.unicodeMode 0) }

/-- Environment: the collaborators consulted by the io paths (file system,
property values, dialog answers, extender). -/
structure Env where
  modTime : Nat → Nat
  fopenOk : Nat → Bool
  loaderOk : Bool
  threadOk : Bool
  onBeforeSave : Bool
  writeOk : Bool
  saveDeletesFirst : Int
  saveCheckModifiedTime : Int
  backgroundSaveSize : Int
  lengthDoc : Nat
  answerYes : Nat → Bool
  dialogPath : Nat → Option Nat
  isPropertiesFile : Nat → Bool
  fileBytes : List Char
  bomMode : UniMode
  newWid : Nat → Nat
  hasExtender : Bool

/-- The controller state touched by the io paths. -/
structure Ed where
  buffers : List Buf
  current : Nat
  stack : List Nat
  stackcurrent : Nat
  lengthVisible : Nat
  capacity : Nat
  filePath : Nat
  filePathUntitled : Bool
  messages : List Msg
  events : List Ev
  quitting : Bool
  jobExecuting : Bool
  jobHasCommandToRun : Bool
deriving DecidableEq, Repr

/-- `CurrentBuffer()`. -/
def Ed.currentBuffer (st : Ed) : Buf := st.buffers.getD st.current Buf.init

/-- Update the buffer of slot `i` in place. -/
def Ed.updAt (i : Nat) (f : Buf → Buf) (st : Ed) : Ed :=
  { st with buffers := st.buffers.set i (f (st.buffers.getD i Buf.init)) }

/-- Update the current buffer in place. -/
def Ed.updCurrent (f : Buf → Buf) (st : Ed) : Ed := Ed.updAt st.current f st

/-- `WindowMessageBox`: log a message. -/
def Ed.msg (m : Msg) (st : Ed) : Ed := { st with messages := st.messages ++ [m] }

/-- Log an external side effect. -/
def Ed.ev (e : Ev) (st : Ed) : Ed := { st with events := st.events ++ [e] }

/-- `BufferList::GetDocumentByWorker`: first slot whose attached worker is
the given one (pointer identity, modelled by `wid`); `none` for the code's
`-1`. -/
def getDocumentByWorker (st : Ed) (wid : Nat) : Option Nat :=
  st.buffers.findIdx? fun b =>
    match b.worker with
    | some w => w.wid == wid
    | none => false

/-- `BufferList::GetVisible`. -/
def getVisible (st : Ed) (index : Nat) : Bool := decide (index < st.lengthVisible)

/-- `BufferList::Swap`: exchange two slots and rename their indices inside
the MRU stack. -/
def swapBufs (st : Ed) (a b : Nat) : Ed :=
  if a = b ∨ st.buffers.length ≤ a ∨ st.buffers.length ≤ b then st
  else
    let ba := st.buffers.getD a Buf.init
    let bb := st.buffers.getD b Buf.init
    { st with buffers := (st.buffers.set a bb).set b ba,
              stack := st.stack.map fun v => if v = a then b else if v = b then a else v }

/-- `BufferList::SetVisible`. -/
def setVisible (st : Ed) (index : Nat) (visible : Bool) : Ed :=
  if visible = getVisible st index then st
  else if visible then
    let st1 := if st.lengthVisible < index then swapBufs st index st.lengthVisible else st
    { st1 with lengthVisible := st1.lengthVisible + 1 }
  else
    let st1 := if index + 1 < st.lengthVisible then swapBufs st index (st.lengthVisible - 1) else st
    let lv := st1.lengthVisible - 1
    { st1 with lengthVisible := lv,
               current := if lv ≤ st1.current ∧ 0 < lv then lv - 1 else st1.current }

/-- `BufferList::MoveToStackTop` on the plain index stack. -/
def moveToStackTop (st : Ed) (index : Nat) : Ed :=
  match st.stack with
  | [] => st
  | s0 :: rest =>
    match removeLastOccBy id rest index with
    | some (q, rest2) => { st with stack := q :: s0 :: rest2 }
    | none => { st with stack := index :: rest }

/-- `BufferList::PopStack`. -/
def popStack (st : Ed) : Ed :=
  { st with stack := st.stack.tail.map fun v => if st.current < v then v - 1 else v }

/-- `BufferList::CommitStackSelection`. -/
def commitStackSelection (st : Ed) : Ed :=
  let st1 := moveToStackTop st (st.stack.getD st.stackcurrent 0)
  { st1 with stackcurrent := 0 }

/-- `BufferList::RemoveCurrent`: preserve the document handle, compact the
slots after `current` down by one, drop and re-map the MRU stack, shrink,
and push the new current slot to the stack top. -/
def removeCurrent (st : Ed) : Ed :=
  let len := st.buffers.length
  let currentDoc := (st.buffers.getD st.current Buf.init).doc
  let st1 := Ed.updAt st.current Buf.completeLoading st
  let st2 := { st1 with buffers :=
    match st1.buffers.getLast? with
    | some lastB => (st1.buffers.eraseIdx st1.current) ++ [{ lastB with doc := currentDoc }]
    | none => st1.buffers }
  if 1 < len then
    let st3 := commitStackSelection st2
    let st4 := popStack st3
    let st5 : Ed := { st4 with buffers := st4.buffers.dropLast,
                               lengthVisible := st4.lengthVisible - 1 }
    let st6 : Ed := if st5.lengthVisible ≤ st5.current then
        if 0 < st5.lengthVisible then { st5 with current := st5.lengthVisible - 1 }
        else { st5 with current := 0 }
      else st5
    moveToStackTop st6 st6.current
  else
    let st3 := Ed.updAt st2.current (fun _ => Buf.init) st2
    moveToStackTop st3 st3.current

/-- `BufferList::RemoveInvisible`. -/
def removeInvisible (st : Ed) (index : Nat) : Ed :=
  if index = st.current then removeCurrent st
  else
    let st1 := if index + 1 < st.buffers.length then swapBufs st index (st.buffers.length - 1) else st
    { st1 with buffers := st1.buffers.dropLast }

/-- `BufferList::AddFuture`. -/
def addFuture (st : Ed) (index fd : Nat) : Ed :=
  Ed.updAt index (fun b => { b with futureDo := b.futureDo ||| fd }) st

/-- `BufferList::SavingInBackground`: some buffer has an unfinished storing
worker. -/
def savingInBackground (st : Ed) : Bool :=
  st.buffers.any fun b =>
    match b.worker with
    | some w => !w.isLoading && !w.completed
    | none => false

/-- `SciTEBase::CompleteOpen` reduced to its state effects: editor calls
logged, then `CurrentBuffer()->CompleteLoading()`. -/
def completeOpen (st : Ed) : Ed :=
  Ed.updCurrent Buf.completeLoading (Ed.ev .completeOpen st)

/-- `SciTEBase::TextRead` (cutetext_io.cxx): main-thread completion handler
of a `FileLoader`.  When the owning buffer is not found the event is
dropped without any effect. -/
def TextRead (st : Ed) (w : FW) : Ed :=
  match getDocumentByWorker st w.wid with
  | some i =>
    let stA := Ed.updAt i
      (fun b => { b with unicodeMode := w.unicodeMode, lifeState := Life.kReadAll }) st
    let stB := if w.err ≠ 0 then
        Ed.updAt i (fun b => { b with lifeState := Life.kEmpty }) (Ed.msg .couldNotOpen stA)
      else stA
    let stC := Ed.ev .switchDocument (Ed.updAt i (fun b => { b with doc := w.resultDoc }) stB)
    if i = stC.current then completeOpen stC else stC
  | none => st

/-- The unconditional tail of `SciTEBase::TextWritten`: failed-save message
box on error, properties reload, status bar, pending job start and the
quit-on-last-save check. -/
def twTail (env : Env) (w : FW) (st1 : Ed) : Ed :=
  let st2 := if w.err ≠ 0 then Ed.msg .failedSaveMessage st1 else st1
  let st3 := if env.isPropertiesFile w.path then Ed.ev .reloadProperties st2 else st2
  let st4 := Ed.ev .statusBar st3
  let st5 := if !st4.jobExecuting && st4.jobHasCommandToRun then Ed.ev .executeJobs st4 else st4
  if st5.quitting && !savingInBackground st5 then Ed.ev .quitProgram st5 else st5

/-- `SciTEBase::TextWritten` (cutetext_io.cxx): main-thread completion
handler of a `FileStorer`. -/
def TextWritten (env : Env) (st : Ed) (w : FW) : Ed :=
  let errSaved := w.err
  let cancelledSaved := w.cancelling
  let st1 :=
    match getDocumentByWorker st w.wid with
    | some i =>
      let stA := Ed.updAt i (fun b => Buf.completeStoring (env.modTime b.fileId) b) st
      if errSaved ≠ 0 ∨ cancelledSaved = true then
        let stB := Ed.ev .menus (setVisible stA i true)
        if i = stB.current then
          Ed.ev (.setReadOnly stB.currentBuffer.isReadOnly) stB
        else stB
      else
        let stB := if getVisible stA i = false then removeInvisible stA i else stA
        if i = stB.current then
          let stC := Ed.ev (.setReadOnly stB.currentBuffer.isReadOnly) stB
          let stD := if w.path = stC.currentBuffer.fileId then Ed.ev .setSavePoint stC else stC
          if env.hasExtender then Ed.ev .onSaveExtender stD else stD
        else
          let stC := Ed.updAt i (fun b => { b with isDirty := false, failedSave := false }) stB
          Ed.ev .menus (addFuture stC i 1)
    | none => Ed.msg .couldNotFindBuffer st
  twTail env w st1

/-- `SciTEBase::OpenCurrentFile` (cutetext_io.cxx): reject when a worker is
already attached, otherwise open the file and either attach a `FileLoader`
(asynchronous) or read synchronously, consulting the coding cookie. -/
def OpenCurrentFile (env : Env) (fileSize : Nat) (suppressMessage asynchronous : Bool)
    (st : Ed) : Ed :=
  if (Ed.currentBuffer st).worker.isSome then
    if !suppressMessage then Ed.msg .couldNotOpen st else st
  else if !(env.fopenOk st.filePath) then
    let st1 := if !suppressMessage then Ed.msg .couldNotOpen st else st
    Ed.ev .setUndoCollection st1
  else
    let st1 := Ed.updCurrent (fun b => Buf.setTimeFromFile (env.modTime b.fileId) b) st
    let st2 := Ed.ev .clearAll (Ed.ev .beginUndoAction st1)
    let st3 := Ed.updCurrent (fun b => { b with lifeState := Life.kReading }) st2
    if asynchronous then
      let st4 := Ed.ev (.setReadOnly true) (Ed.ev .styleSetBack st3)
      if !env.loaderOk then Ed.ev .setStatus st4
      else
        let wid := env.newWid st4.events.length
        let st5 := Ed.updCurrent (Buf.attachLoader wid) st4
        Ed.ev .performOnNewThread st5
    else
      let st4 := Ed.ev .addText (Ed.ev .allocateDoc st3)
      let st5 := Ed.ev .endUndoAction st4
      let umCodingCookie := CodingCookieValue env.fileBytes env.fileBytes.length
      let st6 := Ed.updCurrent (fun b => { b with unicodeMode := env.bomMode }) st5
      let st7 := if (Ed.currentBuffer st6).unicodeMode = UniMode.kUni8Bit then
          Ed.updCurrent (fun b => { b with unicodeMode := umCodingCookie }) st6
        else st6
      completeOpen st7

/-- `SciTEBase::SetFileName` reduced to its state effects. -/
def setFileName (p : Nat) (st : Ed) : Ed :=
  let st1 := { st with filePath := p, filePathUntitled := false }
  let st2 := Ed.ev .windowName (Ed.ev .readProperties st1)
  Ed.updCurrent (fun b => { b with fileId := p, untitled := false }) st2

/-- `SciTEBase::PrepareBufferForSave`: text clean ups under one undo action;
the extender may take over the save. -/
def prepareBufferForSave (env : Env) (st : Ed) : Bool × Ed :=
  (env.onBeforeSave, Ed.ev .prepareForSave st)

/-- `SciTEBase::SaveBuffer` (cutetext_io.cxx): either attach a `FileStorer`
(background) or write synchronously.  `sf` carries the `SaveFlags` bits
(`kSfProgressVisible = 1`, `kSfSynchronous = 16`). -/
def SaveBuffer (env : Env) (sf : Nat) (st : Ed) : Bool × Ed :=
  let pair :=
    let p0 := prepareBufferForSave env st
    if p0.1 then p0
    else if env.fopenOk p0.2.filePath then
      if sf &&& 16 = 0 then
        let stA := Ed.ev (.setReadOnly true) p0.2
        let wid := env.newWid stA.events.length
        let stB := Ed.updCurrent
          (Buf.attachStorer wid (decide (sf &&& 1 ≠ 0)) stA.filePath) stA
        if env.threadOk then (true, stB)
        else (false, Ed.msg .threadCouldNotStart stB)
      else (env.writeOk, p0.2)
    else (false, p0.2)
  let st1 := if pair.1 ∧ env.hasExtender ∧ sf &&& 16 ≠ 0 then Ed.ev .onSaveExtender pair.2
    else pair.2
  (pair.1, Ed.ev .statusBar st1)

/-- Result of one pass of `SciTEBase::Save` before any save-as dialog:
either a final result, or a request to run the save-as dialog (after a
failed save, or because the buffer is untitled — on cancellation of the
latter the file name is reset to untitled). -/
inductive SaveOutcome where
  | done (r : Bool) (st : Ed)
  | dialogRetry (st : Ed)
  | dialogUntitled (st : Ed)
deriving DecidableEq, Repr

/-- The controller state carried by a `SaveOutcome`. -/
def SaveOutcome.state : SaveOutcome → Ed
  | .done _ st => st
  | .dialogRetry st => st
  | .dialogUntitled st => st

/-- The non-recursive part of `SciTEBase::Save` (cutetext_io.cxx): reject
an untitled, not-yet-loaded or already-saving buffer, the optional
delete-first / modified-outside checks, then `SaveBuffer`; a failed save
sets `failedSave` and may request the save-as dialog. -/
def SaveCore (env : Env) (sf : Nat) (st : Ed) : SaveOutcome :=
  if !st.filePathUntitled then
    if (Ed.currentBuffer st).lifeState ≠ Life.kOpen then
      .done true (Ed.msg .notYetLoaded st)
    else if (Ed.currentBuffer st).worker.isSome then
      .done true (Ed.msg .alreadyBeingSaved st)
    else
      let pre :=
        if env.saveDeletesFirst ≠ 0 then (false, Ed.ev .removeFile st)
        else if env.saveCheckModifiedTime ≠ 0 then
          let newModTime := env.modTime (Ed.currentBuffer st).fileId
          if newModTime ≠ 0 ∧ (Ed.currentBuffer st).fileModTime ≠ 0 ∧
              newModTime ≠ (Ed.currentBuffer st).fileModTime then
            let stAsk := Ed.msg .modifiedOutside st
            if env.answerYes st.messages.length then (false, stAsk)
            else (true, stAsk)
          else (false, st)
        else (false, st)
      if pre.1 then .done false pre.2
      else
        let st2 := pre.2
        let sf1 := if (env.lengthDoc : Int) ≤ env.backgroundSaveSize ∨ st2.capacity = 1
          then sf ||| 16 else sf
        let sb := SaveBuffer env sf1 st2
        if sb.1 then
          let st4 := Ed.updCurrent
            (fun b => Buf.setTimeFromFile (env.modTime b.fileId) b) sb.2
          let st5 := if sf1 &&& 16 ≠ 0 then
              let stA := Ed.ev .setSavePoint st4
              if env.isPropertiesFile st4.filePath then Ed.ev .reloadProperties stA
              else stA
            else st4
          .done true st5
        else
          if (Ed.currentBuffer sb.2).failedSave = false then
            let st4 := Ed.updCurrent (fun b => { b with failedSave := true }) sb.2
            let st5 := Ed.msg .couldNotSaveAskRename st4
            if env.answerYes st4.messages.length then .dialogRetry st5
            else .done false st5
          else .done false sb.2
  else .dialogUntitled st

/-- `SciTEBase::Save` (cutetext_io.cxx).  The recursive save-as path is fuel
bounded; `SaveAsDialog` itself is modelled from the spec: it is declared in
cutetext_base.h and overridden by the window layer, which is not among the
sources — on confirmation it picks a path and performs `SaveAs` (setting
the file name and saving again, cutetext_io.cxx), on cancellation it does
nothing. -/
def Save (env : Env) : Nat → Nat → Ed → Bool × Ed
  | 0, sf, st =>
    match SaveCore env sf st with
    | .done r st1 => (r, st1)
    | .dialogRetry st1 => (false, st1)
    | .dialogUntitled st1 =>
      (false, { st1 with filePath := 0, filePathUntitled := true })
  | fuel + 1, sf, st =>
    match SaveCore env sf st with
    | .done r st1 => (r, st1)
    | .dialogRetry st1 =>
      match env.dialogPath (fuel + 1) with
      | some p =>
        let stS := setFileName p st1
        let stT := (Save env fuel 1 stS).2
        (true, Ed.ev .menus (Ed.ev .windowName (Ed.ev .readProperties stT)))
      | none => (false, st1)
    | .dialogUntitled st1 =>
      match env.dialogPath (fuel + 1) with
      | some p =>
        let stS := setFileName p st1
        let stT := (Save env fuel 1 stS).2
        (true, Ed.ev .menus (Ed.ev .windowName (Ed.ev .readProperties stT)))
      | none => (false, { st1 with filePath := 0, filePathUntitled := true })

/-- Buffer lifecycle states of a controller state, in slot order. -/
def lifeMap (st : Ed) : List Life := st.buffers.map Buf.lifeState

/-- A fixed environment for concrete runs. -/
def sampleEnv : Env :=
  ⟨fun _ => 3, fun _ => true, true, true, false, true, 0, 0, -1, 10,
    fun _ => false, fun _ => none, fun _ => false, [], .kUni8Bit,
    fun n => n + 100, false⟩

/-- An open, titled buffer on file `fid`. -/
def bufOpen (fid : Nat) : Buf :=
  { Buf.init with fileId := fid, untitled := false, lifeState := .kOpen }

/-- A storing worker that completed with an I/O error. -/
def storerErr : FW := ⟨5, false, 1, false, false, true, 7, .kUni8Bit, 0⟩

/-- A loading worker in flight. -/
def loaderW : FW := ⟨9, true, 0, false, false, true, 3, .kUni8Bit, 0⟩

/-- A worker no buffer owns. -/
def orphanW : FW := ⟨42, false, 1, false, false, true, 9, .kUni8Bit, 0⟩

/-- Two buffers; slot 1 is invisible (closed during its background save),
holds the erroring storer and a sticky `failedSave` flag. -/
def edC7 : Ed :=
  { buffers := [bufOpen 3, { bufOpen 7 with failedSave := true, worker := some storerErr }],
    current := 0, stack := [0, 1], stackcurrent := 0, lengthVisible := 1,
    capacity := 3, filePath := 3, filePathUntitled := false, messages := [],
    events := [], quitting := false, jobExecuting := false,
    jobHasCommandToRun := false }

/-- One buffer with a loader attached. -/
def edC2 : Ed :=
  { buffers := [{ bufOpen 3 with worker := some loaderW }], current := 0,
    stack := [0], stackcurrent := 0, lengthVisible := 1, capacity := 3,
    filePath := 3, filePathUntitled := false, messages := [], events := [],
    quitting := false, jobExecuting := false, jobHasCommandToRun := false }

/-- One worker-free buffer. -/
def edC8 : Ed :=
  { buffers := [bufOpen 3], current := 0, stack := [0], stackcurrent := 0,
    lengthVisible := 1, capacity := 3, filePath := 3,
    filePathUntitled := false, messages := [], events := [],
    quitting := false, jobExecuting := false, jobHasCommandToRun := false }

end Io

/-! ## BufferList slot/stack management (cutetext_buffers.cxx)

Model dedicated to the MRU-stack remap invariant.  A buffer is identified
by the number handed out at its `Init()`, and every MRU cell carries, next
to the slot index the code stores, the identity of the buffer the cell was
pushed for.  Only the live regions (`length_` slots and cells) are kept:
the code never reads past them before re-initialising. -/

namespace BL

/-- `BufferList` state: live slots (buffer identities), live MRU cells
`(slot index, identity pushed for)`, and the scalar fields of the class. -/
structure St where
  buffers : List Nat
  stack : List (Nat × Nat)
  current : Nat
  stackcurrent : Nat
  lengthVisible : Nat
  size : Nat
  nextId : Nat
deriving DecidableEq, Repr

/-- `BufferList::Allocate`: one live slot, `stack[0] = 0`. -/
def Allocate (maxSize : Nat) : St :=
  { buffers := [0], stack := [(0, 0)], current := 0, stackcurrent := 0,
    lengthVisible := 1, size := maxSize, nextId := 1 }

/-- `BufferList::MoveToStackTop`: the loop shifts the stack down over the
highest occurrence of `index` past the head and writes `index` at the top.
A freshly written top cell is pushed for the buffer occupying slot
`index`. -/
def moveToStackTop (st : St) (index : Nat) : St :=
  match st.stack with
  | [] => st
  | s0 :: rest =>
    match removeLastOccBy Prod.fst rest index with
    | some (q, rest2) => { st with stack := q :: s0 :: rest2 }
    | none => { st with stack := (index, st.buffers.getD index 0) :: rest }

/-- `BufferList::PopStack`: drop the top cell and re-map every remaining
cell whose index exceeds `current` by decrementing it. -/
def popStack (st : St) : St :=
  let adjusted := st.stack.tail.map fun p => (if st.current < p.1 then p.1 - 1 else p.1, p.2)
  { st with stack := adjusted }

/-- `BufferList::CommitStackSelection`. -/
def commitStackSelection (st : St) : St :=
  let st1 := moveToStackTop st ((st.stack.getD st.stackcurrent (0, 0)).1)
  { st1 with stackcurrent := 0 }

/-- `BufferList::GetVisible`. -/
def getVisible (st : St) (index : Nat) : Bool := decide (index < st.lengthVisible)

/-- `BufferList::Swap`: exchange two slots and rename their indices in the
stack; a cell follows its buffer, so its pushed-for identity travels with
it. -/
def swapSlots (st : St) (a b : Nat) : St :=
  if a = b ∨ st.buffers.length ≤ a ∨ st.buffers.length ≤ b then st
  else
    let renamed := st.stack.map fun p =>
      if p.1 = a then (b, p.2) else if p.1 = b then (a, p.2) else p
    { st with
      buffers := (st.buffers.set a (st.buffers.getD b 0)).set b (st.buffers.getD a 0),
      stack := renamed }

/-- `BufferList::SetVisible`. -/
def setVisible (st : St) (index : Nat) (visible : Bool) : St :=
  if visible = getVisible st index then st
  else if visible then
    let st1 := if st.lengthVisible < index then swapSlots st index st.lengthVisible else st
    { st1 with lengthVisible := st1.lengthVisible + 1 }
  else
    let st1 := if index + 1 < st.lengthVisible then swapSlots st index (st.lengthVisible - 1)
      else st
    let lv := st1.lengthVisible - 1
    { st1 with lengthVisible := lv,
               current := if lv ≤ st1.current ∧ 0 < lv then lv - 1 else st1.current }

/-- `BufferList::Add`: grow below capacity (reuse the top slot at
capacity), `Init()` the slot — a fresh identity — write its stack cell,
move it to the stack top and make it visible. -/
def Add (st : St) : St :=
  let st1 : St :=
    if st.buffers.length < st.size then
      { st with buffers := st.buffers ++ [st.nextId],
                stack := st.stack ++ [(st.buffers.length, st.nextId)],
                nextId := st.nextId + 1 }
    else
      { st with buffers := st.buffers.set (st.buffers.length - 1) st.nextId,
                stack := st.stack.set (st.stack.length - 1)
                  (st.buffers.length - 1, st.nextId),
                nextId := st.nextId + 1 }
  let st2 := moveToStackTop st1 (st1.buffers.length - 1)
  setVisible st2 (st2.buffers.length - 1) true

/-- `BufferList::RemoveCurrent`: keep the removed slot's document pointer,
compact the following slots down by one (identities shift; the vacated last
slot is re-initialised beyond the live region), commit and pop the stack,
shrink, fix `current`, and push it to the stack top. -/
def RemoveCurrent (st : St) : St :=
  let len := st.buffers.length
  let st1 : St := { st with buffers :=
    match st.buffers.getLast? with
    | some lastB => (st.buffers.eraseIdx st.current) ++ [lastB]
    | none => st.buffers }
  if 1 < len then
    let st2 := commitStackSelection st1
    let st3 := popStack st2
    let st4 : St := { st3 with buffers := st3.buffers.dropLast,
                               lengthVisible := st3.lengthVisible - 1 }
    let st5 : St := if st4.lengthVisible ≤ st4.current then
        if 0 < st4.lengthVisible then { st4 with current := st4.lengthVisible - 1 }
        else { st4 with current := 0 }
      else st4
    moveToStackTop st5 st5.current
  else
    let st2 : St := { st1 with buffers := st1.buffers.set st1.current st1.nextId,
                               nextId := st1.nextId + 1 }
    moveToStackTop st2 st2.current

/-- The two operations the claim quantifies over. -/
inductive BOp where
  | add
  | removeCurrent
deriving DecidableEq, Repr

/-- One raw operation, exactly as `BufferList` exposes it. -/
def stepRaw (st : St) : BOp → St
  | .add => Add st
  | .removeCurrent => RemoveCurrent st

/-- A raw operation sequence. -/
def runRaw (st : St) (ops : List BOp) : St := ops.foldl stepRaw st

/-- One operation under the discipline every caller in the source obeys:
`Add` is performed only below capacity (`IsBufferAvailable`) and is
followed by selecting the added buffer (`buffers.SetCurrent(buffers.Add())`
in `SciTEBase::New`). -/
def stepChecked (st : St) : BOp → Option St
  | .add =>
    if st.buffers.length < st.size then
      let st1 := Add st
      some { st1 with current := st1.lengthVisible - 1 }
    else none
  | .removeCurrent => some (RemoveCurrent st)

/-- Run a disciplined operation sequence. -/
def runChecked (st : St) : List BOp → Option St
  | [] => some st
  | op :: rest =>
    match stepChecked st op with
    | some st1 => runChecked st1 rest
    | none => none

/-- The invariant of the claim: every live MRU cell indexes a live slot
that still holds the buffer the cell was pushed for. -/
def StackOk (st : St) : Prop :=
  ∀ p ∈ st.stack, p.1 < st.buffers.length ∧ st.buffers.getD p.1 0 = p.2

instance (st : St) : Decidable (StackOk st) := by
  unfold StackOk; infer_instance

/-- Well-formedness carried through disciplined runs. -/
def WF (st : St) : Prop :=
  st.stack.length = st.buffers.length ∧
  1 ≤ st.buffers.length ∧
  st.buffers.length ≤ st.size ∧
  st.lengthVisible = st.buffers.length ∧
  st.current < st.buffers.length ∧
  st.stackcurrent = 0 ∧
  (st.stack.map Prod.fst).Nodup ∧
  StackOk st ∧
  (st.stack.headD (0, 0)).1 = st.current

end BL

end CuteText

namespace CuteText

/-! # Theorems

## Scanning-loop lemmas (cookie.cxx) -/

theorem matchesAt_bound {s pat : List Char} {i : Nat} (hpat : pat ≠ [])
    (h : matchesAt s pat i = true) : i + pat.length ≤ s.length := by
  unfold matchesAt at h
  have he : (s.drop i).take pat.length = pat := eq_of_beq h
  have hlen := congrArg List.length he
  rw [List.length_take, List.length_drop] at hlen
  have hp : 0 < pat.length := List.length_pos.mpr hpat
  omega

theorem findFromAux_some {s pat : List Char} :
    ∀ {fuel i r : Nat}, findFromAux s pat fuel i = some r →
      i ≤ r ∧ r < i + fuel ∧ matchesAt s pat r = true ∧
        ∀ j, i ≤ j → j < r → matchesAt s pat j = false := by
  intro fuel
  induction fuel with
  | zero => intro i r h; simp [findFromAux] at h
  | succ fuel ih =>
    intro i r h
    simp only [findFromAux] at h
    by_cases hm : matchesAt s pat i = true
    · rw [if_pos hm] at h
      obtain rfl := Option.some.inj h
      exact ⟨le_rfl, by omega, hm, fun j h1 h2 => absurd h1 (by omega)⟩
    · rw [if_neg hm] at h
      obtain ⟨h1, h2, h3, h4⟩ := ih h
      refine ⟨by omega, by omega, h3, fun j hj1 hj2 => ?_⟩
      rcases Nat.eq_or_lt_of_le hj1 with heq | hlt
      · rw [← heq]; exact Bool.eq_false_iff.mpr hm
      · exact h4 j hlt hj2

theorem findFrom_some {s pat : List Char} {i r : Nat} (h : findFrom s pat i = some r) :
    i ≤ r ∧ r ≤ s.length ∧ matchesAt s pat r = true ∧
      ∀ j, i ≤ j → j < r → matchesAt s pat j = false := by
  unfold findFrom at h
  obtain ⟨h1, h2, h3, h4⟩ := findFromAux_some h
  exact ⟨h1, by omega, h3, h4⟩

theorem findFromAux_intro {s pat : List Char} :
    ∀ {fuel i r : Nat}, i ≤ r → r < i + fuel → matchesAt s pat r = true →
      (∀ j, i ≤ j → j < r → matchesAt s pat j = false) →
      findFromAux s pat fuel i = some r := by
  intro fuel
  induction fuel with
  | zero => intro i r h1 h2 _ _; omega
  | succ fuel ih =>
    intro i r h1 h2 h3 h4
    simp only [findFromAux]
    rcases Nat.eq_or_lt_of_le h1 with heq | hlt
    · rw [heq, if_pos (heq ▸ h3)]
    · have hi : matchesAt s pat i = false := h4 i le_rfl hlt
      rw [if_neg (by simp [hi])]
      exact ih (by omega) (by omega) h3 (fun j a b => h4 j (by omega) b)

theorem findFrom_intro {s pat : List Char} {i r : Nat} (hpat : pat ≠ [])
    (h1 : i ≤ r) (h3 : matchesAt s pat r = true)
    (h4 : ∀ j, i ≤ j → j < r → matchesAt s pat j = false) :
    findFrom s pat i = some r := by
  unfold findFrom
  have hb := matchesAt_bound hpat h3
  have hp : 0 < pat.length := List.length_pos.mpr hpat
  exact findFromAux_intro h1 (by omega) h3 h4

theorem findFromAux_none {s pat : List Char} :
    ∀ {fuel i : Nat}, findFromAux s pat fuel i = none →
      ∀ j, i ≤ j → j < i + fuel → matchesAt s pat j = false := by
  intro fuel
  induction fuel with
  | zero => intro i _ j _ _; omega
  | succ fuel ih =>
    intro i h j hj1 hj2
    simp only [findFromAux] at h
    by_cases hm : matchesAt s pat i = true
    · rw [if_pos hm] at h; cases h
    · rw [if_neg hm] at h
      rcases Nat.eq_or_lt_of_le hj1 with heq | hlt
      · rw [← heq]; exact Bool.eq_false_iff.mpr hm
      · exact ih h j hlt (by omega)

theorem findFrom_none {s pat : List Char} {i : Nat} (h : findFrom s pat i = none) :
    ∀ j, i ≤ j → j ≤ s.length → matchesAt s pat j = false := by
  unfold findFrom at h
  intro j hj1 hj2
  exact findFromAux_none h j hj1 (by omega)

theorem CookieValue_eq_kUniCookie_iff (s : List Char) :
    CookieValue s = UniMode.kUniCookie ↔ specLineCookieFirst s := by
  unfold CookieValue specLineCookieFirst
  cases hf : findFrom s ("coding".toList) 0 with
  | none =>
    simp only
    constructor
    · intro h; cases h
    · rintro ⟨i, hm, -, -⟩
      have hb := matchesAt_bound (by decide) hm
      have := findFrom_none hf i (Nat.zero_le i) (by simpa using by omega)
      rw [this] at hm; cases hm
  | some p =>
    simp only
    by_cases hc : cookieAt s (p + 6) = true
    · rw [if_pos hc]
      obtain ⟨-, -, hmp, hminp⟩ := findFrom_some hf
      simp only [iff_true_intro rfl, true_iff]
      exact ⟨p, hmp, fun j hj => hminp j (Nat.zero_le j) hj, hc⟩
    · rw [if_neg hc]
      constructor
      · intro h; cases h
      · rintro ⟨i, hm, hmin, hci⟩
        obtain ⟨-, -, hmp, hminp⟩ := findFrom_some hf
        have hip : i = p := by
          rcases lt_trichotomy i p with hlt | heq | hgt
          · have := hminp i (Nat.zero_le i) hlt
            rw [this] at hm; cases hm
          · exact heq
          · have := hmin p hgt
            rw [this] at hmp; cases hmp
        exact absurd (hip ▸ hci) hc

theorem CookieValue_cases (s : List Char) :
    CookieValue s = UniMode.kUni8Bit ∨ CookieValue s = UniMode.kUniCookie := by
  unfold CookieValue
  cases findFrom s ("coding".toList) 0 with
  | none => exact Or.inl rfl
  | some p =>
    by_cases hc : cookieAt s (p + 6) = true
    · exact Or.inr (by simp [hc])
    · exact Or.inl (by simp [hc])

/-- **C6** (counterexample): with the first two lines read as "one of them
*contains* the token `coding` followed by `:`/`=` with value `utf-8`", the
claimed equivalence fails on `xcoding coding: utf-8\n` — the code inspects
only the first occurrence of `coding` (inside `xcoding`), finds no
separator after it and loads the file as raw 8-bit, although the line does
contain a well-formed cookie. -/
theorem c6_cookie_counterexample :
    ¬ (CodingCookieValue cookieCexBuf cookieCexBuf.length = UniMode.kUniCookie ↔
        (specLineCookie (ExtractLine cookieCexBuf cookieCexBuf.length) ∨
          specLineCookie (ExtractLine
            (cookieCexBuf.drop (ExtractLine cookieCexBuf cookieCexBuf.length).length)
            (cookieCexBuf.length - (ExtractLine cookieCexBuf cookieCexBuf.length).length)))) := by
  decide

/-- **C6** (amended): on load of a file with no byte-order marker, the
encoding mode is forced to UTF-8 exactly when the *first occurrence* of the
token `coding` in one of the first two lines is followed by `:` or `=`,
optionally quoted, whose value (trimmed of spaces/tabs, lower-cased,
restricted to the encoding characters) equals `utf-8`; line 1 is scanned
first and line 2 only if line 1 has no such cookie; lines are delimited by
CR, LF or CRLF. -/
theorem c6_cookie_detection_amended (buf : List Char) (len : Nat) :
    CodingCookieValue buf len = UniMode.kUniCookie ↔
      (specLineCookieFirst (ExtractLine buf len) ∨
        (¬ specLineCookieFirst (ExtractLine buf len) ∧
          specLineCookieFirst (ExtractLine (buf.drop (ExtractLine buf len).length)
            (len - (ExtractLine buf len).length)))) := by
  unfold CodingCookieValue
  simp only
  rcases CookieValue_cases (ExtractLine buf len) with h1 | h1 <;> rw [h1]
  · have hn1 : ¬ specLineCookieFirst (ExtractLine buf len) := by
      rw [← CookieValue_eq_kUniCookie_iff, h1]; intro h; cases h
    rw [CookieValue_eq_kUniCookie_iff]
    constructor
    · intro h2; exact Or.inr ⟨hn1, h2⟩
    · rintro (h2 | ⟨-, h2⟩)
      · exact absurd h2 hn1
      · exact h2
  · have hs1 := (CookieValue_eq_kUniCookie_iff _).mp h1
    simp [hs1]

/-! ## ExtractLine lemmas and C10 -/

theorem scanToEolAux_ge {buf : List Char} :
    ∀ {fuel pos : Nat}, pos ≤ scanToEolAux buf fuel pos := by
  intro fuel
  induction fuel with
  | zero => intro pos; simp [scanToEolAux]
  | succ fuel ih =>
    intro pos
    simp only [scanToEolAux]
    by_cases h : isEolAt buf pos = true
    · rw [if_pos h]
    · rw [if_neg h]; exact le_trans (by omega) ih

theorem scanToEolAux_le {buf : List Char} :
    ∀ {fuel pos : Nat}, scanToEolAux buf fuel pos ≤ pos + fuel := by
  intro fuel
  induction fuel with
  | zero => intro pos; simp [scanToEolAux]
  | succ fuel ih =>
    intro pos
    simp only [scanToEolAux]
    by_cases h : isEolAt buf pos = true
    · rw [if_pos h]; omega
    · rw [if_neg h]; exact le_trans ih (by omega)

theorem scanToEolAux_before {buf : List Char} :
    ∀ {fuel pos : Nat} (j : Nat), pos ≤ j → j < scanToEolAux buf fuel pos →
      isEolAt buf j = false := by
  intro fuel
  induction fuel with
  | zero => intro pos j h1 h2; rw [scanToEolAux] at h2; omega
  | succ fuel ih =>
    intro pos j h1 h2
    simp only [scanToEolAux] at h2
    by_cases h : isEolAt buf pos = true
    · rw [if_pos h] at h2; omega
    · rw [if_neg h] at h2
      rcases Nat.eq_or_lt_of_le h1 with heq | hlt
      · rw [← heq]; exact Bool.eq_false_iff.mpr h
      · exact ih j hlt h2

theorem scanToEolAux_stop {buf : List Char} :
    ∀ {fuel pos : Nat}, scanToEolAux buf fuel pos < pos + fuel →
      isEolAt buf (scanToEolAux buf fuel pos) = true := by
  intro fuel
  induction fuel with
  | zero => intro pos h; rw [scanToEolAux] at h; omega
  | succ fuel ih =>
    intro pos h
    simp only [scanToEolAux] at h ⊢
    by_cases hp : isEolAt buf pos = true
    · rw [if_pos hp]; exact hp
    · rw [if_neg hp] at h ⊢
      exact ih (by omega)

theorem scanToEol_le (buf : List Char) (len : Nat) : scanToEol buf len 0 ≤ len := by
  have h := @scanToEolAux_le buf (len - 0) 0
  simpa [scanToEol] using h

theorem scanToEol_stop (buf : List Char) {len : Nat} (h : scanToEol buf len 0 < len) :
    isEolAt buf (scanToEol buf len 0) = true := by
  have hle := scanToEol_le buf len
  have h2 := @scanToEolAux_stop buf (len - 0) 0
  simp only [scanToEol] at h ⊢
  exact h2 (by omega)

theorem scanToEol_before (buf : List Char) {len : Nat} :
    ∀ j < scanToEol buf len 0, isEolAt buf j = false := by
  intro j hj
  have h2 := @scanToEolAux_before buf (len - 0) 0 j (Nat.zero_le j)
  simp only [scanToEol] at hj
  exact h2 hj

theorem extractLine_length_le (buf : List Char) (len : Nat) :
    (ExtractLine buf len).length ≤ len := by
  unfold ExtractLine
  by_cases h0 : 0 < len
  · rw [if_pos h0]
    simp only
    have he1 : scanToEol buf len 0 ≤ len := scanToEol_le buf len
    refine le_trans (List.length_take_le _ _) ?_
    split_ifs with h1 h2 h2 <;> simp only [Bool.and_eq_true, decide_eq_true_eq] at h1 <;> omega
  · rw [if_neg h0]; simp

/-- **C10**: for every buffer prefix of at least `length` characters and
every `length > 0`, `ExtractLine` returns a non-empty initial segment of
the buffer of at most `length` characters; when a CR/LF delimiter occurs
within `length` characters the segment ends just after the first one
(counting CRLF as a single delimiter); and the second-line extraction of
`CodingCookieValue` at offset `l1.length` stays within the given length. -/
theorem c10_extractLine_safety (buf : List Char) (len : Nat)
    (hbuf : len ≤ buf.length) (h0 : 0 < len) :
    0 < (ExtractLine buf len).length ∧
    (ExtractLine buf len).length ≤ len ∧
    ExtractLine buf len = buf.take (ExtractLine buf len).length ∧
    (∀ i0 : Nat, isEolAt buf i0 = true → i0 < len →
      (∀ j < i0, isEolAt buf j = false) →
      (ExtractLine buf len).length =
        if charAt buf i0 = Char.ofNat 13 ∧ i0 + 1 < len ∧
            charAt buf (i0 + 1) = Char.ofNat 10
        then i0 + 2 else i0 + 1) ∧
    (ExtractLine buf len).length +
      (ExtractLine (buf.drop (ExtractLine buf len).length)
        (len - (ExtractLine buf len).length)).length ≤ len := by
  have he1le : scanToEol buf len 0 ≤ len := scanToEol_le buf len
  have hstop : scanToEol buf len 0 < len → isEolAt buf (scanToEol buf len 0) = true :=
    fun h => scanToEol_stop buf h
  have hbefore : ∀ j < scanToEol buf len 0, isEolAt buf j = false := scanToEol_before buf
  -- the three cut positions of ExtractLine
  have hEL : ExtractLine buf len =
      buf.take (if (if decide (scanToEol buf len 0 + 1 < len) &&
          (charAt buf (scanToEol buf len 0) == Char.ofNat 13) &&
          (charAt buf (scanToEol buf len 0 + 1) == Char.ofNat 10)
        then scanToEol buf len 0 + 1 else scanToEol buf len 0) < len
      then (if decide (scanToEol buf len 0 + 1 < len) &&
          (charAt buf (scanToEol buf len 0) == Char.ofNat 13) &&
          (charAt buf (scanToEol buf len 0 + 1) == Char.ofNat 10)
        then scanToEol buf len 0 + 1 else scanToEol buf len 0) + 1
      else (if decide (scanToEol buf len 0 + 1 < len) &&
          (charAt buf (scanToEol buf len 0) == Char.ofNat 13) &&
          (charAt buf (scanToEol buf len 0 + 1) == Char.ofNat 10)
        then scanToEol buf len 0 + 1 else scanToEol buf len 0)) := by
    unfold ExtractLine
    rw [if_pos h0]
  set e1 := scanToEol buf len 0 with he1def
  set e2 := if decide (e1 + 1 < len) && (charAt buf e1 == Char.ofNat 13) &&
      (charAt buf (e1 + 1) == Char.ofNat 10) then e1 + 1 else e1 with he2def
  set e3 := if e2 < len then e2 + 1 else e2 with he3def
  have he2 : e1 ≤ e2 ∧ e2 ≤ len := by
    rw [he2def]; split_ifs with h <;>
      simp only [Bool.and_eq_true, decide_eq_true_eq] at h <;> omega
  have he3 : e2 ≤ e3 ∧ e3 ≤ len ∧ 0 < e3 := by
    rw [he3def]
    split_ifs with h
    · refine ⟨by omega, by omega, by omega⟩
    · -- e2 ≥ len, so e2 = len and e3 = e2 = len > 0
      refine ⟨le_rfl, by omega, by omega⟩
  have hlen3 : (buf.take e3).length = e3 := by
    rw [List.length_take]; omega
  have hELe3 : ExtractLine buf len = buf.take e3 := hEL
  constructor
  · rw [hELe3, hlen3]; omega
  constructor
  · rw [hELe3, hlen3]; omega
  constructor
  · rw [hELe3, hlen3]
  constructor
  · intro i0 hi0eol hi0len hi0min
    rw [hELe3, hlen3]
    -- the least delimiter position is exactly e1
    have he1i0 : e1 = i0 := by
      rcases lt_trichotomy e1 i0 with hlt | heq | hgt
      · have := hi0min e1 hlt
        have h2 := hstop (by omega)
        rw [this] at h2; cases h2
      · exact heq
      · have := hbefore i0 hgt
        rw [this] at hi0eol; cases hi0eol
    rw [he3def, he2def, he1i0]
    by_cases hb : (decide (i0 + 1 < len) && (charAt buf i0 == Char.ofNat 13) &&
        (charAt buf (i0 + 1) == Char.ofNat 10)) = true
    · have hc2 : charAt buf i0 = Char.ofNat 13 ∧ i0 + 1 < len ∧
          charAt buf (i0 + 1) = Char.ofNat 10 := by
        simp only [Bool.and_eq_true, decide_eq_true_eq, beq_iff_eq] at hb
        exact ⟨hb.1.2, hb.1.1, hb.2⟩
      rw [if_pos hb, if_pos hc2.2.1, if_pos hc2]
    · have hc2 : ¬ (charAt buf i0 = Char.ofNat 13 ∧ i0 + 1 < len ∧
          charAt buf (i0 + 1) = Char.ofNat 10) := by
        simp only [Bool.and_eq_true, decide_eq_true_eq, beq_iff_eq, not_and] at hb ⊢
        intro h1 h2 h3
        exact hb ⟨h2, h1⟩ h3
      rw [if_neg hb, if_pos hi0len, if_neg hc2]
  · rw [hELe3, hlen3]
    obtain ⟨h31, h32, h33⟩ := he3
    have hrest := extractLine_length_le (buf.drop e3) (len - e3)
    omega

/-- **C10** (witness): the theorem applied to the buffer `ab<LF>cd` with
length 5. -/
theorem c10_extractLine_safety_witness :
    5 ≤ ("ab\ncd".toList).length ∧ 0 < 5 ∧
    (0 < (ExtractLine ("ab\ncd".toList) 5).length ∧
    (ExtractLine ("ab\ncd".toList) 5).length ≤ 5 ∧
    ExtractLine ("ab\ncd".toList) 5 =
      ("ab\ncd".toList).take (ExtractLine ("ab\ncd".toList) 5).length ∧
    (∀ i0 : Nat, isEolAt ("ab\ncd".toList) i0 = true → i0 < 5 →
      (∀ j < i0, isEolAt ("ab\ncd".toList) j = false) →
      (ExtractLine ("ab\ncd".toList) 5).length =
        if charAt ("ab\ncd".toList) i0 = Char.ofNat 13 ∧ i0 + 1 < 5 ∧
            charAt ("ab\ncd".toList) (i0 + 1) = Char.ofNat 10
        then i0 + 2 else i0 + 1) ∧
    (ExtractLine ("ab\ncd".toList) 5).length +
      (ExtractLine (("ab\ncd".toList).drop (ExtractLine ("ab\ncd".toList) 5).length)
        (5 - (ExtractLine ("ab\ncd".toList) 5).length)).length ≤ 5) :=
  ⟨by decide, by decide, c10_extractLine_safety ("ab\ncd".toList) 5 (by decide) (by decide)⟩

/-! ## Session line lists: lemmas and C5 -/

theorem digitChar_spec (m : Nat) (h : m < 10) :
    isDigitChar (Char.ofNat (48 + m)) = true ∧
    (Char.ofNat (48 + m)).toNat - 48 = m ∧
    cIsSpace (Char.ofNat (48 + m)) = false ∧
    (Char.ofNat (48 + m) == '-') = false ∧
    (Char.ofNat (48 + m) == '+') = false ∧
    (Char.ofNat (48 + m) == ',') = false := by
  interval_cases m <;> decide

theorem natToChars_spec (n : Nat) :
    ∀ c ∈ natToChars n, isDigitChar c = true ∧ cIsSpace c = false ∧
      (c == '-') = false ∧ (c == '+') = false ∧ (c == ',') = false := by
  induction n using Nat.strong_induction_on with
  | _ n ih =>
    intro c hc
    rw [natToChars] at hc
    by_cases h : n < 10
    · rw [if_pos h] at hc
      simp only [List.mem_singleton] at hc
      obtain ⟨h1, -, h3, h4, h5, h6⟩ := digitChar_spec n h
      exact hc ▸ ⟨h1, h3, h4, h5, h6⟩
    · rw [if_neg h] at hc
      rcases List.mem_append.mp hc with hm | hm
      · exact ih (n / 10) (Nat.div_lt_self (by omega) (by omega)) c hm
      · simp only [List.mem_singleton] at hm
        obtain ⟨h1, -, h3, h4, h5, h6⟩ := digitChar_spec (n % 10) (Nat.mod_lt _ (by omega))
        exact hm ▸ ⟨h1, h3, h4, h5, h6⟩

theorem natToChars_ne_nil (n : Nat) : natToChars n ≠ [] := by
  rw [natToChars]
  by_cases h : n < 10
  · rw [if_pos h]; simp
  · rw [if_neg h]; simp

theorem atoiDigits_natToChars (n : Nat) :
    ∀ (rest : List Char) (acc : Nat),
      atoiDigits (natToChars n ++ rest) acc = atoiDigits rest (acc * tenPow n + n) := by
  induction n using Nat.strong_induction_on with
  | _ n ih =>
    intro rest acc
    rw [natToChars, tenPow]
    by_cases h : n < 10
    · rw [if_pos h, if_pos h]
      simp only [List.singleton_append, atoiDigits]
      rw [if_pos (digitChar_spec n h).1, (digitChar_spec n h).2.1]
      rfl
    · rw [if_neg h, if_neg h]
      rw [List.append_assoc,
        ih (n / 10) (Nat.div_lt_self (by omega) (by omega)) _ acc]
      simp only [List.singleton_append, atoiDigits]
      rw [if_pos (digitChar_spec (n % 10) (Nat.mod_lt _ (by omega))).1,
        (digitChar_spec (n % 10) (Nat.mod_lt _ (by omega))).2.1]
      congr 1
      have hdm := Nat.div_add_mod n 10
      ring_nf
      omega

theorem atoiDigits_stop (rest : List Char) (acc : Nat)
    (h : ∀ c, rest.head? = some c → isDigitChar c = false) :
    atoiDigits rest acc = acc := by
  cases rest with
  | nil => rfl
  | cons c cs =>
    simp only [atoiDigits]
    rw [if_neg (by simp [h c rfl])]

theorem render_spec (v : Int) :
    ∀ c ∈ StdStringFromInteger v, (c == ',') = false := by
  intro c hc
  unfold StdStringFromInteger at hc
  by_cases hv : v < 0
  · rw [if_pos hv] at hc
    rcases List.mem_cons.mp hc with h | h
    · rw [h]; decide
    · exact (natToChars_spec _ c h).2.2.2.2
  · rw [if_neg hv] at hc
    exact (natToChars_spec _ c hc).2.2.2.2

theorem render_ne_nil (v : Int) : StdStringFromInteger v ≠ [] := by
  unfold StdStringFromInteger
  by_cases hv : v < 0
  · rw [if_pos hv]; simp
  · rw [if_neg hv]; exact natToChars_ne_nil _

theorem atoi_render (v : Int) (rest : List Char)
    (hrest : ∀ c, rest.head? = some c → isDigitChar c = false) :
    atoi (StdStringFromInteger v ++ rest) = v := by
  unfold StdStringFromInteger atoi
  by_cases hv : v < 0
  · rw [if_pos hv]
    simp only [List.cons_append]
    rw [List.dropWhile_cons_of_neg (by decide)]
    simp only [atoiSigned, beq_self_eq_true, if_pos]
    rw [atoiDigits_natToChars, atoiDigits_stop rest _ hrest]
    simp only [Nat.zero_mul, Nat.zero_add]
    omega
  · rw [if_neg hv]
    rcases hnc : natToChars v.toNat with _ | ⟨c, cs⟩
    · exact absurd hnc (natToChars_ne_nil _)
    · have hcmem : c ∈ natToChars v.toNat := by rw [hnc]; exact List.mem_cons_self c cs
      obtain ⟨hdig, hsp, hminus, hplus, -⟩ := natToChars_spec _ c hcmem
      simp only [List.cons_append]
      rw [List.dropWhile_cons_of_neg (by simp [hsp])]
      simp only [atoiSigned]
      rw [if_neg (by simp [hminus]), if_neg (by simp [hplus])]
      have hsh : atoiDigits (c :: (cs ++ rest)) 0 = atoiDigits ((c :: cs) ++ rest) 0 := rfl
      rw [hsh, ← hnc, atoiDigits_natToChars, atoiDigits_stop rest _ hrest]
      simp only [Nat.zero_mul, Nat.zero_add]
      omega

theorem foldl_render (ls : List Int) :
    ∀ acc : List Char, acc ≠ [] →
      ls.foldl (fun result line =>
        (if result.length ≠ 0 then result ++ [','] else result) ++
          StdStringFromInteger (line + 1)) acc = acc ++ tailRender ls := by
  induction ls with
  | nil => intro acc _; simp [tailRender]
  | cons l ls ih =>
    intro acc hacc
    simp only [List.foldl_cons]
    rw [if_pos (by simpa using hacc)]
    rw [ih _ (by simp)]
    simp [tailRender]

theorem StringFromLines_cons (l : Int) (ls : List Int) :
    StringFromLines (l :: ls) = StdStringFromInteger (l + 1) ++ tailRender ls := by
  unfold StringFromLines
  simp only [List.foldl_cons, List.length_nil, ne_eq, not_true_eq_false, if_neg,
    List.nil_append, not_false_eq_true]
  exact foldl_render ls _ (render_ne_nil _)

theorem tailRender_length (ls : List Int) : ls.length ≤ (tailRender ls).length := by
  induction ls with
  | nil => simp [tailRender]
  | cons l ls ih => simp [tailRender]; omega

theorem get?_add_drop (s : List Char) (i k : Nat) :
    s.get? (i + k) = (s.drop i).get? k := by
  rw [List.get?_eq_getElem?, List.get?_eq_getElem?, List.getElem?_drop]

theorem matchesAt_single_iff {s : List Char} {c : Char} {j : Nat} :
    matchesAt s [c] j = true ↔ s.get? j = some c := by
  unfold matchesAt
  rcases hd : s.drop j with _ | ⟨a, t⟩
  · have hlen : s.length ≤ j := by
      have := congrArg List.length hd
      simp only [List.length_drop, List.length_nil] at this
      by_contra hcon
      omega
    have hnone : s.get? j = none := List.get?_eq_none.mpr hlen
    rw [hnone]
    simp
  · have hget : s.get? j = some a := by
      have h0 := get?_add_drop s j 0
      rw [Nat.add_zero, hd] at h0
      exact h0
    rw [hget]
    simp [List.take_cons]

theorem dropped_char {s pre rest : List Char} {start j : Nat} {c : Char}
    (hdrop : s.drop start = pre ++ rest) (hj1 : start ≤ j)
    (hj2 : j - start < pre.length) (hget : s.get? j = some c) : c ∈ pre := by
  have h1 : s.get? (start + (j - start)) = (s.drop start).get? (j - start) :=
    get?_add_drop s start (j - start)
  rw [show start + (j - start) = j by omega, hget, hdrop,
    List.get?_append hj2] at h1
  exact List.get?_mem h1.symm

theorem linesAux_parse (s : List Char) (ls : List Int) :
    ∀ (fuel start : Nat) (v : Int),
      s.drop start = StdStringFromInteger (v + 1) ++ tailRender ls →
      ls.length < fuel →
      linesFromStringAux s fuel start = v :: ls := by
  induction ls with
  | nil =>
    intro fuel start v hdrop hfuel
    obtain ⟨f, rfl⟩ : ∃ f, fuel = f + 1 := ⟨fuel - 1, by omega⟩
    simp only [linesFromStringAux]
    rw [show tailRender [] = [] from rfl, List.append_nil] at hdrop
    have ha : atoi (s.drop start) = v + 1 := by
      rw [hdrop]
      have := atoi_render (v + 1) [] (by intro c h; cases h)
      simpa using this
    have hnone : findFrom s [','] start = none := by
      cases hfind : findFrom s [','] start with
      | none => rfl
      | some p =>
        exfalso
        obtain ⟨hp1, hp2, hp3, -⟩ := findFrom_some hfind
        have hget := matchesAt_single_iff.mp hp3
        by_cases hin : p - start < (StdStringFromInteger (v + 1)).length
        · have hc := @dropped_char s (StdStringFromInteger (v + 1)) [] start p _ (by simpa using hdrop) hp1 hin hget
          have := render_spec (v + 1) ',' hc
          simp at this
        · have hlen : (s.drop start).length = (StdStringFromInteger (v + 1)).length := by
            rw [hdrop]
          have hslen : s.length - start = (StdStringFromInteger (v + 1)).length := by
            rw [← hlen, List.length_drop]
          have : s.length ≤ p := by omega
          rw [List.get?_eq_none.mpr this] at hget
          cases hget
    rw [ha, hnone]
    simp
  | cons l ls ih =>
    intro fuel start v hdrop hfuel
    simp only [List.length_cons] at hfuel
    obtain ⟨f, rfl⟩ : ∃ f, fuel = f + 1 := ⟨fuel - 1, by omega⟩
    simp only [linesFromStringAux]
    have hdropTail : tailRender (l :: ls) =
        ',' :: (StdStringFromInteger (l + 1) ++ tailRender ls) := rfl
    rw [hdropTail] at hdrop
    have ha : atoi (s.drop start) = v + 1 := by
      rw [hdrop]
      exact atoi_render (v + 1) _ (by intro c h; cases h; decide)
    have hstartle : start ≤ s.length := by
      by_contra hgt
      have hnil : s.drop start = [] := List.drop_eq_nil_of_le (by omega)
      rw [hnil] at hdrop
      exact render_ne_nil (v + 1) (List.append_eq_nil.mp hdrop.symm).1
    have hcommapos : s.get? (start + (StdStringFromInteger (v + 1)).length) = some ',' := by
      rw [get?_add_drop, hdrop, List.get?_append_right le_rfl]
      simp
    have hcomma : findFrom s [','] start =
        some (start + (StdStringFromInteger (v + 1)).length) := by
      apply findFrom_intro (by decide) (by omega)
      · exact matchesAt_single_iff.mpr hcommapos
      · intro j hj1 hj2
        rw [Bool.eq_false_iff]
        intro hmj
        have hget := matchesAt_single_iff.mp hmj
        have hc := dropped_char hdrop hj1 (by omega) hget
        have := render_spec (v + 1) ',' hc
        simp at this
    rw [ha, hcomma]
    simp only
    have hdrop2 : s.drop (start + (StdStringFromInteger (v + 1)).length + 1) =
        StdStringFromInteger (l + 1) ++ tailRender ls := by
      have heq : s.drop (start + (StdStringFromInteger (v + 1)).length + 1) =
          (s.drop start).drop ((StdStringFromInteger (v + 1)).length + 1) := by
        rw [List.drop_drop]
        congr 1 <;> omega
      rw [heq, hdrop]
      rw [show (StdStringFromInteger (v + 1)).length + 1 =
          ((StdStringFromInteger (v + 1)) ++ [',']).length by simp]
      rw [show StdStringFromInteger (v + 1) ++
          ',' :: (StdStringFromInteger (l + 1) ++ tailRender ls) =
          (StdStringFromInteger (v + 1) ++ [',']) ++
            (StdStringFromInteger (l + 1) ++ tailRender ls) by simp]
      exact List.drop_left _ _
    rw [ih f _ l hdrop2 (by omega)]
    simp

/-- **C5**: session persistence of bookmark and fold line lists round-trips
exactly: for every list of 0-based line numbers, rendering it with
`StringFromLines` (each line plus one, comma-separated) and parsing the
result with `LinesFromString` yields the original list — in particular for
the bookmarks `{2,5,9}` and folds `{0,3}` of the claim. -/
theorem c5_session_lines_roundtrip (lines : List Int) :
    LinesFromString (StringFromLines lines) = lines := by
  cases lines with
  | nil => rfl
  | cons l ls =>
    rw [StringFromLines_cons]
    unfold LinesFromString
    have hne : (StdStringFromInteger (l + 1) ++ tailRender ls).length ≠ 0 := by
      simp only [List.length_append, ne_eq]
      intro hcon
      have h1 : (StdStringFromInteger (l + 1)).length = 0 := by omega
      exact render_ne_nil (l + 1) (List.length_eq_zero.mp h1)
    rw [if_pos hne]
    apply linesAux_parse
    · simp
    · have h1 := tailRender_length ls
      simp only [List.length_append, List.length_cons]
      omega

/-! ## Worker cancellation: lemmas and C3 -/

theorem cancelWait_some {reads : Nat → Bool} :
    ∀ {fuel start n : Nat}, cancelWait reads fuel start = some n →
      start ≤ n ∧ reads n = true ∧ ∀ m, start ≤ m → m < n → reads m = false := by
  intro fuel
  induction fuel with
  | zero => intro start n h; cases h
  | succ fuel ih =>
    intro start n h
    simp only [cancelWait] at h
    by_cases hr : reads start = true
    · rw [if_pos hr] at h
      obtain rfl := Option.some.inj h
      exact ⟨le_rfl, hr, fun m h1 h2 => absurd h1 (by omega)⟩
    · rw [if_neg hr] at h
      obtain ⟨h1, h2, h3⟩ := ih h
      refine ⟨by omega, h2, fun m hm1 hm2 => ?_⟩
      rcases Nat.eq_or_lt_of_le hm1 with heq | hlt
      · rw [← heq]; exact Bool.eq_false_iff.mpr hr
      · exact h3 m hlt hm2

/-- **C3**: `Worker::Cancel`, called on a worker whose background execution
is incomplete, sets `cancelling` to `true` and never returns before the
completion flag is observably `true`: when the busy-wait returns at poll
`n`, the flag was observed `true` at `n` and `false` at every earlier poll,
and the cancel path touches no other field of the worker. -/
theorem c3_cancel_blocks_until_completed (w : WorkerState) (reads : Nat → Bool)
    (fuel : Nat) (w' : WorkerState) (n : Nat)
    (h : WorkerCancel w reads fuel = some (w', n)) :
    w'.cancelling = true ∧ reads n = true ∧ (∀ m < n, reads m = false) ∧
      w'.completed = w.completed ∧ w'.jobSize = w.jobSize ∧
      w'.jobProgress = w.jobProgress := by
  unfold WorkerCancel at h
  cases hw : cancelWait reads fuel 0 with
  | none => rw [hw] at h; cases h
  | some k =>
    rw [hw] at h
    simp only [Option.some.injEq, Prod.mk.injEq] at h
    obtain ⟨hw', hk⟩ := h
    obtain ⟨-, h2, h3⟩ := cancelWait_some hw
    rw [← hw', ← hk]
    exact ⟨rfl, h2, fun m hm => h3 m (Nat.zero_le m) hm, rfl, rfl, rfl⟩

/-- **C3** (witness): the theorem applied to a worker whose completion flag
is first observed `true` at the second poll. -/
theorem c3_cancel_blocks_until_completed_witness :
    WorkerCancel ⟨false, false, 1, 0⟩ (fun k => decide (0 < k)) 5 =
      some (⟨false, true, 1, 0⟩, 1) ∧
    ((⟨false, true, 1, 0⟩ : WorkerState).cancelling = true ∧
      (fun k => decide (0 < k)) 1 = true ∧
      (∀ m < 1, (fun k => decide (0 < k)) m = false) ∧
      (⟨false, true, 1, 0⟩ : WorkerState).completed =
        (⟨false, false, 1, 0⟩ : WorkerState).completed ∧
      (⟨false, true, 1, 0⟩ : WorkerState).jobSize =
        (⟨false, false, 1, 0⟩ : WorkerState).jobSize ∧
      (⟨false, true, 1, 0⟩ : WorkerState).jobProgress =
        (⟨false, false, 1, 0⟩ : WorkerState).jobProgress) :=
  ⟨rfl, c3_cancel_blocks_until_completed ⟨false, false, 1, 0⟩
    (fun k => decide (0 < k)) 5 ⟨false, true, 1, 0⟩ 1 rfl⟩

/-! ## Job queue: lemmas and C4 -/

theorem qstep_inv (s : QState) (e : QEv)
    (h1 : List.Pairwise (· < ·) (seqList s))
    (h2 : ∀ k ∈ seqList s, k < s.nextSeq) :
    List.Pairwise (· < ·) (seqList (qstep s e)) ∧
      ∀ k ∈ seqList (qstep s e), k < (qstep s e).nextSeq := by
  cases e with
  | addCommand j =>
    by_cases hq : s.queue.length < commandMax
    · have hseq : seqList (qstep s (.addCommand j)) = seqList s ++ [s.nextSeq] := by
        simp [qstep, hq, seqList, List.map_append, List.append_assoc]
      have hnext : (qstep s (.addCommand j)).nextSeq = s.nextSeq + 1 := by
        simp [qstep, hq]
      rw [hseq, hnext]
      constructor
      · rw [List.pairwise_append]
        exact ⟨h1, List.pairwise_singleton _ _, fun a ha b hb => by
          simp only [List.mem_singleton] at hb
          exact hb ▸ h2 a ha⟩
      · intro k hk
        simp only [List.mem_append, List.mem_singleton] at hk
        rcases hk with hk | hk
        · have := h2 k hk; omega
        · simp [hk]
    · have hs : qstep s (.addCommand j) = s := by simp [qstep, hq]
      rw [hs]; exact ⟨h1, h2⟩
  | startNext =>
    by_cases hc : (s.running.isNone && !s.cancelled) = true
    · cases hq : s.queue with
      | nil =>
        have hs : qstep s .startNext = s := by simp [qstep, hc, hq]
        rw [hs]; exact ⟨h1, h2⟩
      | cons q rest =>
        have hrun : s.running = none := by
          simp only [Bool.and_eq_true, Option.isNone_iff_eq_none] at hc
          exact hc.1
        have hcf : s.cancelled = false := by
          simp only [Bool.and_eq_true, Bool.not_eq_true'] at hc
          exact hc.2
        have hseq : seqList (qstep s .startNext) = seqList s := by
          simp [qstep, hc, hq, seqList, hrun, hcf]
        have hnext : (qstep s .startNext).nextSeq = s.nextSeq := by
          simp [qstep, hc, hq, hcf, hrun]
        rw [hseq, hnext]
        exact ⟨h1, h2⟩
    · have hs : qstep s .startNext = s := by simp [qstep, hc]
      rw [hs]; exact ⟨h1, h2⟩
  | finishJob =>
    cases hr : s.running with
    | none =>
      have hs : qstep s .finishJob = s := by simp [qstep, hr]
      rw [hs]; exact ⟨h1, h2⟩
    | some q =>
      have hseq : seqList (qstep s .finishJob) = seqList s := by
        simp [qstep, hr, seqList, List.append_assoc]
      have hnext : (qstep s .finishJob).nextSeq = s.nextSeq := by
        simp [qstep, hr]
      rw [hseq, hnext]
      exact ⟨h1, h2⟩
  | stopExecute => exact ⟨h1, h2⟩

theorem qrun_inv (evs : List QEv) :
    ∀ s : QState, List.Pairwise (· < ·) (seqList s) →
      (∀ k ∈ seqList s, k < s.nextSeq) →
      List.Pairwise (· < ·) (seqList (qrun s evs)) ∧
        ∀ k ∈ seqList (qrun s evs), k < (qrun s evs).nextSeq := by
  induction evs with
  | nil => intro s h1 h2; exact ⟨h1, h2⟩
  | cons e evs ih =>
    intro s h1 h2
    obtain ⟨h1s, h2s⟩ := qstep_inv s e h1 h2
    exact ih (qstep s e) h1s h2s

theorem qstep_cancelled (s : QState) (e : QEv) (h : s.cancelled = true) :
    startedSeqs (qstep s e) = startedSeqs s ∧ (qstep s e).cancelled = true := by
  cases e with
  | addCommand j =>
    simp only [qstep]
    by_cases hq : s.queue.length < commandMax
    · rw [if_pos hq]; exact ⟨rfl, h⟩
    · rw [if_neg hq]; exact ⟨rfl, h⟩
  | startNext =>
    simp only [qstep]
    rw [if_neg (by simp [h])]
    exact ⟨rfl, h⟩
  | finishJob =>
    simp only [qstep]
    cases hr : s.running with
    | none => exact ⟨rfl, h⟩
    | some q =>
      refine ⟨?_, h⟩
      simp [startedSeqs, hr]
  | stopExecute => exact ⟨rfl, rfl⟩

theorem qrun_cancelled (evs : List QEv) :
    ∀ s : QState, s.cancelled = true →
      startedSeqs (qrun s evs) = startedSeqs s ∧ (qrun s evs).cancelled = true := by
  induction evs with
  | nil => intro s h; exact ⟨rfl, h⟩
  | cons e evs ih =>
    intro s h
    obtain ⟨hs, hc⟩ := qstep_cancelled s e h
    obtain ⟨hs2, hc2⟩ := ih (qstep s e) hc
    exact ⟨hs2.trans hs, hc2⟩

/-- **C4**: for any event sequence, the jobs that run do so in the exact
order they were enqueued (the sequence numbers along executed–running–queued
are strictly increasing); at most one job executes at a time (a start
request while one is running changes nothing); and once a cancel is issued,
no further job ever starts, whatever happens afterwards. -/
theorem c4_jobqueue_fifo :
    (∀ evs : List QEv, List.Pairwise (· < ·) (seqList (qrun qinit evs))) ∧
    (∀ s : QState, s.running.isSome = true → qstep s .startNext = s) ∧
    (∀ evs1 evs2 : List QEv,
      startedSeqs (qrun (qrun qinit (evs1 ++ [.stopExecute])) evs2) =
        startedSeqs (qrun qinit (evs1 ++ [.stopExecute]))) := by
  refine ⟨?_, ?_, ?_⟩
  · intro evs
    exact (qrun_inv evs qinit (by simp [seqList, qinit]) (by simp [seqList, qinit])).1
  · intro s hs
    cases hr : s.running with
    | none => rw [hr] at hs; cases hs
    | some q => simp [qstep, hr]
  · intro evs1 evs2
    have hcan : (qrun qinit (evs1 ++ [.stopExecute])).cancelled = true := by
      simp [qrun, List.foldl_append, qstep]
    exact (qrun_cancelled evs2 _ hcan).1

/-- **C4** (witness): the theorem's one-at-a-time component applied to a
state with a running job. -/
theorem c4_jobqueue_fifo_witness :
    qstep ⟨[], some (0, ⟨[], 0, 0, [], 0⟩), [], false, 1⟩ QEv.startNext =
      ⟨[], some (0, ⟨[], 0, 0, [], 0⟩), [], false, 1⟩ :=
  c4_jobqueue_fifo.2.1 _ rfl

/-! ## List update helpers for the io model -/

theorem getD_set_self {α : Type} {l : List α} {i : Nat} {x d : α} (h : i < l.length) :
    (l.set i x).getD i d = x := by
  induction l generalizing i with
  | nil => simp at h
  | cons a t ih =>
    cases i with
    | zero => rfl
    | succ n => exact ih (by simpa using h)

theorem getD_set_ne {α : Type} {l : List α} {i j : Nat} {x d : α} (h : i ≠ j) :
    (l.set i x).getD j d = l.getD j d := by
  induction l generalizing i j with
  | nil => rfl
  | cons a t ih =>
    cases i with
    | zero =>
      cases j with
      | zero => exact absurd rfl h
      | succ m => rfl
    | succ n =>
      cases j with
      | zero => rfl
      | succ m => exact ih (by omega)

theorem map_set_self {α β : Type} (g : α → β) (l : List α) (i : Nat) (f : α → α) (d : α)
    (hf : ∀ b, g (f b) = g b) : (l.set i (f (l.getD i d))).map g = l.map g := by
  induction l generalizing i with
  | nil => rfl
  | cons a t ih =>
    cases i with
    | zero =>
      show (f a :: t).map g = (a :: t).map g
      simp [hf]
    | succ n =>
      show (a :: t.set n (f (t.getD n d))).map g = (a :: t).map g
      simp only [List.map_cons]
      rw [ih]

namespace Io

theorem twTail_frame (env : Env) (w : FW) (st : Ed) :
    (twTail env w st).buffers = st.buffers ∧
    (twTail env w st).lengthVisible = st.lengthVisible ∧
    (twTail env w st).current = st.current ∧
    (twTail env w st).messages =
      st.messages ++ (if w.err ≠ 0 then [Msg.failedSaveMessage] else []) := by
  unfold twTail
  simp only [Ed.msg, Ed.ev]
  split_ifs <;> simp

theorem updAt_getD_self (i : Nat) (f : Buf → Buf) (st : Ed) (h : i < st.buffers.length) :
    (Ed.updAt i f st).buffers.getD i Buf.init = f (st.buffers.getD i Buf.init) := by
  unfold Ed.updAt
  exact getD_set_self h

theorem updAt_getD_ne (i j : Nat) (f : Buf → Buf) (st : Ed) (h : i ≠ j) :
    (Ed.updAt i f st).buffers.getD j Buf.init = st.buffers.getD j Buf.init := by
  unfold Ed.updAt
  exact getD_set_ne h

theorem lifeMap_updAt (i : Nat) (f : Buf → Buf) (st : Ed)
    (hf : ∀ b, (f b).lifeState = b.lifeState) :
    lifeMap (Ed.updAt i f st) = lifeMap st := by
  unfold lifeMap Ed.updAt
  exact map_set_self Buf.lifeState st.buffers i f Buf.init hf

end Io

/-! ## C2: at most one worker per buffer -/

/-- **C2** (counterexample): with a loader still attached to the current
buffer, a load attempt issued with `suppressMessage = true` is rejected but
produces no user-visible signal at all — the state, messages included, is
returned unchanged, contradicting "rejected with a user-visible signal". -/
theorem c2_at_most_one_worker_counterexample :
    (Io.Ed.currentBuffer Io.edC2).worker.isSome = true ∧
    Io.OpenCurrentFile Io.sampleEnv 100 true true Io.edC2 = Io.edC2 := by
  constructor
  · decide
  · decide

/-- **C2** (amended): while a worker is attached to the current buffer, a
new load is rejected without touching any state — with the could-not-open
message box shown unless the caller suppressed messages — and a new save of
a titled, fully loaded buffer is rejected with the already-being-saved
message box and no other state change; in neither case is a second worker
attached. -/
theorem c2_at_most_one_worker_amended (env : Io.Env) (st : Io.Ed)
    (fileSize : Nat) (suppressMessage asynchronous : Bool) (sf fuel : Nat)
    (hworker : (Io.Ed.currentBuffer st).worker.isSome = true) :
    Io.OpenCurrentFile env fileSize suppressMessage asynchronous st =
      (if suppressMessage then st else Io.Ed.msg .couldNotOpen st) ∧
    (st.filePathUntitled = false →
      (Io.Ed.currentBuffer st).lifeState = Io.Life.kOpen →
      Io.Save env fuel sf st = (true, Io.Ed.msg .alreadyBeingSaved st)) := by
  constructor
  · unfold Io.OpenCurrentFile
    rw [if_pos hworker]
    cases suppressMessage <;> simp
  · intro huntitled hopen
    have hcore : Io.SaveCore env sf st =
        .done true (Io.Ed.msg .alreadyBeingSaved st) := by
      unfold Io.SaveCore
      rw [if_pos (by simp [huntitled]), if_neg (by simp [hopen]), if_pos hworker]
    cases fuel with
    | zero => rw [Io.Save, hcore]
    | succ f => rw [Io.Save, hcore]

/-- **C2** (witness): the amended theorem applied to a single-buffer state
with an attached loader, messages not suppressed. -/
theorem c2_at_most_one_worker_witness :
    Io.OpenCurrentFile Io.sampleEnv 4 false true Io.edC2 =
      (if false then Io.edC2 else Io.Ed.msg .couldNotOpen Io.edC2) ∧
    (Io.edC2.filePathUntitled = false →
      (Io.Ed.currentBuffer Io.edC2).lifeState = Io.Life.kOpen →
      Io.Save Io.sampleEnv 2 1 Io.edC2 = (true, Io.Ed.msg .alreadyBeingSaved Io.edC2)) :=
  c2_at_most_one_worker_amended Io.sampleEnv Io.edC2 4 false true 1 2 (by decide)

/-! ## C8: stale worker after buffer gone -/

/-- **C8** (counterexample): a save-completion event whose worker no buffer
owns is *not* silently discarded by `TextWritten`: the handler shows a
could-not-find-buffer message box (and the failed-save box when the worker
carries an error), contradicting "discarded, not treated as an error, for
both handlers". -/
theorem c8_stale_worker_counterexample :
    Io.getDocumentByWorker Io.edC8 Io.orphanW.wid = none ∧
    Io.TextRead Io.edC8 Io.orphanW = Io.edC8 ∧
    (Io.TextWritten Io.sampleEnv Io.edC8 Io.orphanW).messages ≠ Io.edC8.messages := by
  refine ⟨by decide, by decide, by decide⟩

/-- **C8** (amended): when a completion event arrives for a worker whose
buffer is gone, the identity look-up returns not-found and no buffer state
is touched; `TextRead` discards the event entirely, while `TextWritten`
additionally reports a could-not-find-buffer message box (plus the
failed-save box when the worker carries an error) before running its usual
tail. -/
theorem c8_stale_worker_amended (env : Io.Env) (st : Io.Ed) (w : Io.FW)
    (hfind : Io.getDocumentByWorker st w.wid = none) :
    Io.TextRead st w = st ∧
    (Io.TextWritten env st w).buffers = st.buffers ∧
    (Io.TextWritten env st w).messages =
      (st.messages ++ [Io.Msg.couldNotFindBuffer]) ++
        (if w.err ≠ 0 then [Io.Msg.failedSaveMessage] else []) := by
  refine ⟨?_, ?_, ?_⟩
  · unfold Io.TextRead
    rw [hfind]
  · unfold Io.TextWritten
    rw [hfind]
    exact (Io.twTail_frame env w _).1
  · unfold Io.TextWritten
    rw [hfind]
    exact (Io.twTail_frame env w _).2.2.2

/-- **C8** (witness): the amended theorem applied to a worker-free state
and an orphaned erroring storer. -/
theorem c8_stale_worker_witness :
    Io.TextRead Io.edC8 Io.orphanW = Io.edC8 ∧
    (Io.TextWritten Io.sampleEnv Io.edC8 Io.orphanW).buffers = Io.edC8.buffers ∧
    (Io.TextWritten Io.sampleEnv Io.edC8 Io.orphanW).messages =
      (Io.edC8.messages ++ [Io.Msg.couldNotFindBuffer]) ++
        (if Io.orphanW.err ≠ 0 then [Io.Msg.failedSaveMessage] else []) :=
  c8_stale_worker_amended Io.sampleEnv Io.edC8 Io.orphanW (by decide)

/-! ## C7: background save completion -/

namespace Io

theorem updAt_length (i : Nat) (f : Buf → Buf) (st : Ed) :
    (Ed.updAt i f st).buffers.length = st.buffers.length := by
  unfold Ed.updAt
  exact List.length_set _ _ _

theorem completeStoring_spec (t : Nat) (b : Buf) (w : FW)
    (hb : b.worker = some w) (hw : w.isLoading = false) :
    Buf.completeStoring t b = { Buf.setTimeFromFile t b with worker := none } := by
  unfold Buf.completeStoring Buf.setTimeFromFile
  rw [hb]
  simp [hw]

theorem setVisible_true_getD (st : Ed) (i : Nat) (hi : i < st.buffers.length)
    (hlv : st.lengthVisible ≤ st.buffers.length) :
    min i st.lengthVisible < (setVisible st i true).lengthVisible ∧
    (setVisible st i true).buffers.getD (min i st.lengthVisible) Buf.init =
      st.buffers.getD i Buf.init := by
  unfold setVisible getVisible
  by_cases h1 : i < st.lengthVisible
  · rw [if_pos (by simp [h1])]
    exact ⟨by omega, by rw [Nat.min_eq_left (by omega)]⟩
  · rw [if_neg (by simp [h1])]
    rw [if_pos rfl]
    by_cases h2 : st.lengthVisible < i
    · rw [if_pos h2]
      unfold swapBufs
      rw [if_neg (by push_neg; exact ⟨by omega, by omega, by omega⟩)]
      constructor
      · simp only
        omega
      · simp only
        rw [Nat.min_eq_right (by omega)]
        rw [getD_set_self]
        simp only [List.length_set]
        omega
    · have hieq : i = st.lengthVisible := by omega
      rw [if_neg h2]
      constructor
      · simp only; omega
      · simp only
        rw [Nat.min_eq_right (by omega), hieq]

theorem branch_readonly_frame (i : Nat) (stB : Ed) :
    (if i = stB.current then Ed.ev (.setReadOnly stB.currentBuffer.isReadOnly) stB
      else stB).buffers = stB.buffers ∧
    (if i = stB.current then Ed.ev (.setReadOnly stB.currentBuffer.isReadOnly) stB
      else stB).lengthVisible = stB.lengthVisible := by
  split_ifs <;> exact ⟨rfl, rfl⟩

end Io

/-- **C7** (counterexample): a background save that completes with an I/O
error does *not* leave `failedSave = true`: `CompleteStoring` runs
`SetTimeFromFile`, which clears `failedSave`, so the resurrected buffer
ends with `failedSave = false` even when the flag was `true` beforehand —
the user-visible record of the failure is only the message box. -/
theorem c7_failed_save_counterexample :
    (Io.edC7.buffers.getD 1 Io.Buf.init).worker = some Io.storerErr ∧
    Io.storerErr.err ≠ 0 ∧
    (Io.edC7.buffers.getD 1 Io.Buf.init).failedSave = true ∧
    1 < (Io.TextWritten Io.sampleEnv Io.edC7 Io.storerErr).lengthVisible ∧
    ((Io.TextWritten Io.sampleEnv Io.edC7 Io.storerErr).buffers.getD 1
      Io.Buf.init).failedSave = false := by
  refine ⟨by decide, by decide, by decide, by decide, by decide⟩

/-- **C7** (amended): when a background save completes with an error or a
cancellation, the buffer is made visible again (also if its tab had been
closed), its worker released, and `failedSave` ends up cleared (not set) by
`CompleteStoring`; on successful completion of a visible non-current
buffer, `isDirty` and `failedSave` are cleared and the worker released. -/
theorem c7_background_save_amended (env : Io.Env) (st : Io.Ed) (w : Io.FW) (i : Nat)
    (hfind : Io.getDocumentByWorker st w.wid = some i)
    (hlen : i < st.buffers.length)
    (hlv : st.lengthVisible ≤ st.buffers.length)
    (hatt : (st.buffers.getD i Io.Buf.init).worker = some w)
    (hstore : w.isLoading = false) :
    (w.err ≠ 0 ∨ w.cancelling = true →
      min i st.lengthVisible < (Io.TextWritten env st w).lengthVisible ∧
      ((Io.TextWritten env st w).buffers.getD (min i st.lengthVisible)
        Io.Buf.init).worker = none ∧
      ((Io.TextWritten env st w).buffers.getD (min i st.lengthVisible)
        Io.Buf.init).failedSave = false ∧
      ((Io.TextWritten env st w).buffers.getD (min i st.lengthVisible)
        Io.Buf.init).fileId = (st.buffers.getD i Io.Buf.init).fileId) ∧
    (w.err = 0 → w.cancelling = false → i < st.lengthVisible → i ≠ st.current →
      ((Io.TextWritten env st w).buffers.getD i Io.Buf.init).isDirty = false ∧
      ((Io.TextWritten env st w).buffers.getD i Io.Buf.init).failedSave = false ∧
      ((Io.TextWritten env st w).buffers.getD i Io.Buf.init).worker = none) := by
  unfold Io.TextWritten
  rw [hfind]
  simp only
  have hA_len : (Io.Ed.updAt i
      (fun b => Io.Buf.completeStoring (env.modTime b.fileId) b) st).buffers.length =
      st.buffers.length := Io.updAt_length _ _ _
  have hA_lv : (Io.Ed.updAt i
      (fun b => Io.Buf.completeStoring (env.modTime b.fileId) b) st).lengthVisible =
      st.lengthVisible := rfl
  have hA_cur : (Io.Ed.updAt i
      (fun b => Io.Buf.completeStoring (env.modTime b.fileId) b) st).current =
      st.current := rfl
  have hA_getD : (Io.Ed.updAt i
      (fun b => Io.Buf.completeStoring (env.modTime b.fileId) b) st).buffers.getD i
        Io.Buf.init =
      { Io.Buf.setTimeFromFile (env.modTime (st.buffers.getD i Io.Buf.init).fileId)
          (st.buffers.getD i Io.Buf.init) with worker := none } := by
    rw [Io.updAt_getD_self i _ st hlen]
    exact Io.completeStoring_spec _ _ w hatt hstore
  constructor
  · intro herr
    rw [if_pos herr]
    set stA := Io.Ed.updAt i
      (fun b => Io.Buf.completeStoring (env.modTime b.fileId) b) st with hstA
    obtain ⟨hsv1, hsv2⟩ := Io.setVisible_true_getD stA i (by rw [hA_len]; exact hlen)
      (by rw [hA_lv, hA_len]; exact hlv)
    have hframe := Io.branch_readonly_frame i (Io.Ed.ev .menus (Io.setVisible stA i true))
    have htw := Io.twTail_frame env w
      (if i = (Io.Ed.ev .menus (Io.setVisible stA i true)).current then
        Io.Ed.ev (.setReadOnly (Io.Ed.ev .menus
          (Io.setVisible stA i true)).currentBuffer.isReadOnly)
          (Io.Ed.ev .menus (Io.setVisible stA i true))
      else Io.Ed.ev .menus (Io.setVisible stA i true))
    rw [htw.1, htw.2.1, hframe.1, hframe.2]
    have hmin : min i stA.lengthVisible = min i st.lengthVisible := by rw [hA_lv]
    rw [show (Io.Ed.ev .menus (Io.setVisible stA i true)).buffers =
        (Io.setVisible stA i true).buffers from rfl,
      show (Io.Ed.ev .menus (Io.setVisible stA i true)).lengthVisible =
        (Io.setVisible stA i true).lengthVisible from rfl]
    rw [← hmin, hsv2, hA_getD]
    exact ⟨by omega, rfl, rfl, rfl⟩
  · intro herr hcan hvis hcur
    rw [if_neg (by simp [herr, hcan])]
    set stA := Io.Ed.updAt i
      (fun b => Io.Buf.completeStoring (env.modTime b.fileId) b) st with hstA
    have hgv : Io.getVisible stA i = true := by
      unfold Io.getVisible
      rw [hA_lv]
      simp [hvis]
    have hbranch : (if Io.getVisible stA i = false then Io.removeInvisible stA i else stA)
        = stA := if_neg (by simp [hgv])
    rw [hbranch]
    have hcur2 : ¬ i = stA.current := fun hh => hcur (hh.trans hA_cur)
    rw [if_neg hcur2]
    have htw := Io.twTail_frame env w (Io.Ed.ev .menus (Io.addFuture
      (Io.Ed.updAt i (fun b => { b with isDirty := false, failedSave := false }) stA) i 1))
    rw [htw.1]
    rw [show (Io.Ed.ev .menus (Io.addFuture
        (Io.Ed.updAt i (fun b => { b with isDirty := false, failedSave := false }) stA)
        i 1)).buffers =
      (Io.addFuture
        (Io.Ed.updAt i (fun b => { b with isDirty := false, failedSave := false }) stA)
        i 1).buffers from rfl]
    unfold Io.addFuture
    rw [Io.updAt_getD_self i _ _ (by
      rw [Io.updAt_length, hA_len]; exact hlen)]
    rw [Io.updAt_getD_self i _ _ (by rw [hA_len]; exact hlen)]
    rw [hA_getD]
    exact ⟨rfl, rfl, rfl⟩

/-- **C7** (witness): the amended theorem applied to the two-buffer state
whose invisible slot holds an erroring storer. -/
theorem c7_background_save_witness :
    (Io.storerErr.err ≠ 0 ∨ Io.storerErr.cancelling = true →
      min 1 Io.edC7.lengthVisible <
        (Io.TextWritten Io.sampleEnv Io.edC7 Io.storerErr).lengthVisible ∧
      ((Io.TextWritten Io.sampleEnv Io.edC7 Io.storerErr).buffers.getD
        (min 1 Io.edC7.lengthVisible) Io.Buf.init).worker = none ∧
      ((Io.TextWritten Io.sampleEnv Io.edC7 Io.storerErr).buffers.getD
        (min 1 Io.edC7.lengthVisible) Io.Buf.init).failedSave = false ∧
      ((Io.TextWritten Io.sampleEnv Io.edC7 Io.storerErr).buffers.getD
        (min 1 Io.edC7.lengthVisible) Io.Buf.init).fileId =
        (Io.edC7.buffers.getD 1 Io.Buf.init).fileId) ∧
    (Io.storerErr.err = 0 → Io.storerErr.cancelling = false →
      1 < Io.edC7.lengthVisible → 1 ≠ Io.edC7.current →
      ((Io.TextWritten Io.sampleEnv Io.edC7 Io.storerErr).buffers.getD 1
        Io.Buf.init).isDirty = false ∧
      ((Io.TextWritten Io.sampleEnv Io.edC7 Io.storerErr).buffers.getD 1
        Io.Buf.init).failedSave = false ∧
      ((Io.TextWritten Io.sampleEnv Io.edC7 Io.storerErr).buffers.getD 1
        Io.Buf.init).worker = none) :=
  c7_background_save_amended Io.sampleEnv Io.edC7 Io.storerErr 1 (by decide)
    (by decide) (by decide) (by decide) (by decide)

/-! ## C1: the MRU-stack remap invariant -/

namespace BL

theorem rlo_none {α : Type} (f : α → Nat) (l : List α) (v : Nat)
    (h : ∀ x ∈ l, f x ≠ v) : removeLastOccBy f l v = none := by
  induction l with
  | nil => rfl
  | cons x xs ih =>
    simp only [removeLastOccBy]
    rw [ih (fun y hy => h y (List.mem_cons_of_mem x hy))]
    rw [if_neg (h x (List.mem_cons_self x xs))]

theorem rlo_none_forall {α : Type} (f : α → Nat) (l : List α) (v : Nat)
    (h : removeLastOccBy f l v = none) : ∀ x ∈ l, f x ≠ v := by
  induction l with
  | nil => intro x hx; simp at hx
  | cons x xs ih =>
    simp only [removeLastOccBy] at h
    cases hr : removeLastOccBy f xs v with
    | some qr =>
      obtain ⟨q, r⟩ := qr
      rw [hr] at h
      simp at h
    | none =>
      rw [hr] at h
      intro y hy
      rcases List.mem_cons.mp hy with rfl | hmem
      · intro hfy
        rw [if_pos hfy] at h
        simp at h
      · exact ih hr y hmem

theorem rlo_some_perm {α : Type} (f : α → Nat) (v : Nat) :
    ∀ (l : List α) (q : α) (r : List α), removeLastOccBy f l v = some (q, r) →
      f q = v ∧ (q :: r).Perm l := by
  intro l
  induction l with
  | nil => intro q r h; simp [removeLastOccBy] at h
  | cons x xs ih =>
    intro q r h
    simp only [removeLastOccBy] at h
    cases hr : removeLastOccBy f xs v with
    | some qr =>
      obtain ⟨q1, r1⟩ := qr
      rw [hr] at h
      injection h with h1
      injection h1 with hq hrr
      subst hq
      subst hrr
      obtain ⟨hf, hp⟩ := ih q1 r1 hr
      exact ⟨hf, (List.Perm.swap x q1 r1).trans (List.Perm.cons x hp)⟩
    | none =>
      rw [hr] at h
      by_cases hfx : f x = v
      · rw [if_pos hfx] at h
        injection h with h1
        injection h1 with hq hrr
        subst hq
        subst hrr
        exact ⟨hfx, List.Perm.refl _⟩
      · rw [if_neg hfx] at h
        simp at h

theorem mts_fields (st : St) (i : Nat) :
    (moveToStackTop st i).buffers = st.buffers ∧ (moveToStackTop st i).current = st.current ∧
    (moveToStackTop st i).stackcurrent = st.stackcurrent ∧
    (moveToStackTop st i).lengthVisible = st.lengthVisible ∧
    (moveToStackTop st i).size = st.size ∧ (moveToStackTop st i).nextId = st.nextId := by
  unfold moveToStackTop
  rcases hstk : st.stack with _ | ⟨s0, rest⟩
  · exact ⟨rfl, rfl, rfl, rfl, rfl, rfl⟩
  · dsimp only
    cases hr : removeLastOccBy Prod.fst rest i with
    | none => exact ⟨rfl, rfl, rfl, rfl, rfl, rfl⟩
    | some qr =>
      obtain ⟨q, rest2⟩ := qr
      exact ⟨rfl, rfl, rfl, rfl, rfl, rfl⟩

theorem mts_ok (st : St) (i : Nat)
    (hne : st.stack ≠ [])
    (hcells : ∀ p ∈ st.stack, p.1 < st.buffers.length ∧ st.buffers.getD p.1 0 = p.2)
    (hnd : (st.stack.map Prod.fst).Nodup)
    (hi : i < st.buffers.length) :
    (moveToStackTop st i).stack.length = st.stack.length ∧
    ((moveToStackTop st i).stack.map Prod.fst).Nodup ∧
    (∀ p ∈ (moveToStackTop st i).stack,
      p.1 < st.buffers.length ∧ st.buffers.getD p.1 0 = p.2) ∧
    (moveToStackTop st i).stack.headD (0, 0) = (i, st.buffers.getD i 0) := by
  unfold moveToStackTop
  rcases hstk : st.stack with _ | ⟨s0, rest⟩
  · exact absurd hstk hne
  · rw [hstk] at hcells hnd
    dsimp only
    cases hr : removeLastOccBy Prod.fst rest i with
    | none =>
      dsimp only
      have hni : ∀ x ∈ rest, x.1 ≠ i := rlo_none_forall Prod.fst rest i hr
      refine ⟨by simp, ?_, ?_, rfl⟩
      · simp only [List.map_cons]
        refine List.nodup_cons.mpr ⟨?_, (List.nodup_cons.mp hnd).2⟩
        intro hmem
        obtain ⟨p, hp, hpe⟩ := List.mem_map.mp hmem
        exact hni p hp hpe
      · intro p hp
        rcases List.mem_cons.mp hp with rfl | hmem
        · exact ⟨hi, rfl⟩
        · exact hcells p (List.mem_cons_of_mem s0 hmem)
    | some qr =>
      obtain ⟨q, rest2⟩ := qr
      dsimp only
      obtain ⟨hfq, hperm⟩ := rlo_some_perm Prod.fst i rest q rest2 hr
      have hqmem : q ∈ rest := hperm.mem_iff.mp (List.mem_cons_self q rest2)
      have hqok := hcells q (List.mem_cons_of_mem s0 hqmem)
      have hfull : (q :: s0 :: rest2).Perm (s0 :: rest) :=
        (List.Perm.swap s0 q rest2).trans (List.Perm.cons s0 hperm)
      refine ⟨?_, ?_, ?_, ?_⟩
      · simpa using hfull.length_eq
      · exact ((hfull.map Prod.fst).nodup_iff).mpr hnd
      · intro p hp
        exact hcells p (hfull.mem_iff.mp hp)
      · show q = (i, st.buffers.getD i 0)
        have h2 := hqok.2
        rw [← hfq, h2]

theorem getD_append_left {α : Type} (l l2 : List α) (i : Nat) (d : α) (h : i < l.length) :
    (l ++ l2).getD i d = l.getD i d := by
  induction l generalizing i with
  | nil => simp at h
  | cons a t ih =>
    cases i with
    | zero => rfl
    | succ n => exact ih n (by simpa using h)

theorem getD_append_length {α : Type} (l : List α) (x : α) (d : α) :
    (l ++ [x]).getD l.length d = x := by
  induction l with
  | nil => rfl
  | cons a t ih => simpa using ih

theorem eraseIdx_len {α : Type} (l : List α) (i : Nat) (h : i < l.length) :
    (l.eraseIdx i).length = l.length - 1 := by
  induction l generalizing i with
  | nil => simp at h
  | cons a t ih =>
    cases i with
    | zero => simp [List.eraseIdx]
    | succ n =>
      have ht : n < t.length := by simpa using h
      simp only [List.eraseIdx, List.length_cons]
      rw [ih n ht]
      omega

theorem getD_eraseIdx_lt {α : Type} (l : List α) (i j : Nat) (d : α) (hj : j < i) :
    (l.eraseIdx i).getD j d = l.getD j d := by
  induction l generalizing i j with
  | nil => simp [List.eraseIdx]
  | cons a t ih =>
    cases i with
    | zero => omega
    | succ n =>
      cases j with
      | zero => rfl
      | succ m =>
        simp only [List.eraseIdx, List.getD_cons_succ]
        exact ih n m (by omega)

theorem getD_eraseIdx_ge {α : Type} (l : List α) (i j : Nat) (d : α) (hij : i < j)
    (hj : j < l.length) : (l.eraseIdx i).getD (j - 1) d = l.getD j d := by
  induction l generalizing i j with
  | nil => simp at hj
  | cons a t ih =>
    cases i with
    | zero =>
      cases j with
      | zero => omega
      | succ m => simp [List.eraseIdx]
    | succ n =>
      cases j with
      | zero => omega
      | succ m =>
        cases m with
        | zero => omega
        | succ m2 =>
          simp only [List.eraseIdx, Nat.add_sub_cancel, List.getD_cons_succ]
          have := ih n (m2 + 1) (by omega) (by simpa using hj)
          simpa using this

theorem getLast?_some_of_ne_nil {α : Type} (l : List α) (h : l ≠ []) :
    ∃ x, l.getLast? = some x := by
  induction l with
  | nil => exact absurd rfl h
  | cons a t ih =>
    cases t with
    | nil => exact ⟨a, rfl⟩
    | cons b t2 =>
      obtain ⟨x, hx⟩ := ih (by simp)
      exact ⟨x, by rw [List.getLast?_cons_cons]; exact hx⟩

theorem commit_stack_shape (st : St) (s0 : Nat × Nat) (rest : List (Nat × Nat))
    (hstk : st.stack = s0 :: rest) (hsc : st.stackcurrent = 0)
    (hno : ∀ p ∈ rest, p.1 ≠ s0.1) :
    commitStackSelection st =
      { st with stack := (s0.1, st.buffers.getD s0.1 0) :: rest, stackcurrent := 0 } := by
  unfold commitStackSelection moveToStackTop
  rw [hsc, hstk]
  rw [List.getD_cons_zero]
  dsimp only
  rw [rlo_none Prod.fst rest s0.1 (fun p hp => hno p hp)]

theorem setVisible_at_length (st : St) (i : Nat) (hi : i = st.lengthVisible) :
    setVisible st i true = { st with lengthVisible := st.lengthVisible + 1 } := by
  subst hi
  unfold setVisible getVisible
  simp [Nat.lt_irrefl]

theorem add_eq (st : St) (hcap : st.buffers.length < st.size)
    (hlv : st.lengthVisible = st.buffers.length) :
    Add st = { moveToStackTop { st with buffers := st.buffers ++ [st.nextId], stack := st.stack ++ [(st.buffers.length, st.nextId)], nextId := st.nextId + 1 } st.buffers.length with lengthVisible := st.lengthVisible + 1 } := by
  unfold Add
  simp only [if_pos hcap]
  simp only [List.length_append, List.length_singleton, Nat.add_sub_cancel]
  set st1 : St := { st with buffers := st.buffers ++ [st.nextId], stack := st.stack ++ [(st.buffers.length, st.nextId)], nextId := st.nextId + 1 } with hst1
  set M := moveToStackTop st1 st.buffers.length with hM
  have hMb : M.buffers = st1.buffers := (mts_fields st1 st.buffers.length).1
  have hMlv : M.lengthVisible = st.lengthVisible :=
    (mts_fields st1 st.buffers.length).2.2.2.1
  have hidx : M.buffers.length - 1 = M.lengthVisible := by
    rw [hMb, hMlv, hst1]
    simp [hlv]
  rw [setVisible_at_length M (M.buffers.length - 1) hidx, hMlv]

theorem removeCurrent_eq (st : St) (s0 : Nat × Nat) (rest : List (Nat × Nat)) (lastB : Nat)
    (hstk : st.stack = s0 :: rest)
    (hsc : st.stackcurrent = 0)
    (hlast : st.buffers.getLast? = some lastB)
    (hlen : 1 < st.buffers.length)
    (hlv : 1 < st.lengthVisible)
    (hno : ∀ p ∈ rest, p.1 ≠ s0.1) :
    RemoveCurrent st = moveToStackTop { st with buffers := st.buffers.eraseIdx st.current, stack := rest.map (fun p => (if st.current < p.1 then p.1 - 1 else p.1, p.2)), lengthVisible := st.lengthVisible - 1, current := if st.lengthVisible - 1 ≤ st.current then st.lengthVisible - 2 else st.current, stackcurrent := 0 } (if st.lengthVisible - 1 ≤ st.current then st.lengthVisible - 2 else st.current) := by
  have hcs := commit_stack_shape
    { st with buffers := st.buffers.eraseIdx st.current ++ [lastB] } s0 rest hstk hsc hno
  unfold RemoveCurrent
  simp only [hlast]
  rw [if_pos hlen, hcs]
  unfold popStack
  simp only [List.tail_cons, List.dropLast_concat, Nat.sub_sub]
  by_cases hc : st.lengthVisible - 1 ≤ st.current
  · simp only [if_pos hc, if_pos (show (0:Nat) < st.lengthVisible - 1 by omega)]
  · simp only [if_neg hc]

theorem removeCurrent_eq_one (st : St) (b0 : Nat) (s0 : Nat × Nat)
    (hb : st.buffers = [b0]) (hstk : st.stack = [s0]) (hc : st.current = 0) :
    RemoveCurrent st =
      { st with buffers := [st.nextId], stack := [(0, st.nextId)], nextId := st.nextId + 1 } := by
  unfold RemoveCurrent moveToStackTop
  rw [hb, hc, hstk]
  simp [removeLastOccBy]

theorem wf_mk (st : St)
    (e1 : st.stack.length = st.buffers.length)
    (e2 : 1 ≤ st.buffers.length)
    (e3 : st.buffers.length ≤ st.size)
    (e4 : st.lengthVisible = st.buffers.length)
    (e5 : st.current < st.buffers.length)
    (e6 : st.stackcurrent = 0)
    (e7 : (st.stack.map Prod.fst).Nodup)
    (e8 : ∀ p ∈ st.stack, p.1 < st.buffers.length ∧ st.buffers.getD p.1 0 = p.2)
    (e9 : (st.stack.headD (0, 0)).1 = st.current) : WF st :=
  ⟨e1, e2, e3, e4, e5, e6, e7, e8, e9⟩

theorem wf_allocate (n : Nat) (h : 1 ≤ n) : WF (Allocate n) := by
  unfold WF StackOk Allocate
  refine ⟨rfl, by simp, by simpa using h, rfl, by simp, rfl, by simp, ?_, rfl⟩
  intro p hp
  have hp2 : p = ((0 : Nat), (0 : Nat)) := by simpa using hp
  subst hp2
  exact ⟨by simp, rfl⟩

theorem wf_add (st : St) (h : WF st) (hcap : st.buffers.length < st.size) :
    WF { Add st with current := (Add st).lengthVisible - 1 } := by
  have h' := h
  unfold WF at h'
  obtain ⟨h1, h2, h3, h4, h5, h6, h7, h8, h9⟩ := h'
  rw [add_eq st hcap h4]
  set st1 : St := { st with buffers := st.buffers ++ [st.nextId], stack := st.stack ++ [(st.buffers.length, st.nextId)], nextId := st.nextId + 1 } with hst1
  set M := moveToStackTop st1 st.buffers.length with hM
  have hf := mts_fields st1 st.buffers.length
  have hcells1 : ∀ p ∈ st.stack ++ [(st.buffers.length, st.nextId)],
      p.1 < (st.buffers ++ [st.nextId]).length ∧
      (st.buffers ++ [st.nextId]).getD p.1 0 = p.2 := by
    intro p hp
    rcases List.mem_append.mp hp with hold | hnew
    · obtain ⟨hb, hg⟩ := h8 p hold
      refine ⟨by simp; omega, ?_⟩
      rw [getD_append_left st.buffers [st.nextId] p.1 0 hb]
      exact hg
    · have hp2 : p = (st.buffers.length, st.nextId) := by simpa using hnew
      subst hp2
      exact ⟨by simp, getD_append_length st.buffers st.nextId 0⟩
  have hnd1 : ((st.stack ++ [(st.buffers.length, st.nextId)]).map Prod.fst).Nodup := by
    rw [List.map_append]
    refine List.Nodup.append h7 (List.nodup_singleton _) ?_
    intro a ha hb
    have hb2 : a = st.buffers.length := by simpa using hb
    obtain ⟨p, hp, hpa⟩ := List.mem_map.mp ha
    have := (h8 p hp).1
    omega
  have hne1 : st.stack ++ [(st.buffers.length, st.nextId)] ≠ [] := by simp
  have hi1 : st.buffers.length < (st.buffers ++ [st.nextId]).length := by simp
  have hmts := mts_ok st1 st.buffers.length hne1 hcells1 hnd1 hi1
  have hms : M.stack.length = st.stack.length + 1 := by
    rw [hmts.1]
    show (st.stack ++ [(st.buffers.length, st.nextId)]).length = st.stack.length + 1
    simp
  have hmb : M.buffers.length = st.buffers.length + 1 := by
    rw [hf.1]
    show (st.buffers ++ [st.nextId]).length = st.buffers.length + 1
    simp
  apply wf_mk
  · show M.stack.length = M.buffers.length
    omega
  · show 1 ≤ M.buffers.length
    omega
  · have hsz : M.size = st.size := hf.2.2.2.2.1
    show M.buffers.length ≤ M.size
    omega
  · show st.lengthVisible + 1 = M.buffers.length
    omega
  · show st.lengthVisible + 1 - 1 < M.buffers.length
    omega
  · show M.stackcurrent = 0
    exact hf.2.2.1.trans h6
  · exact hmts.2.1
  · intro p hp
    have := hmts.2.2.1 p hp
    rw [hf.1]
    exact this
  · show (M.stack.headD (0, 0)).1 = st.lengthVisible + 1 - 1
    rw [hmts.2.2.2]
    show st.buffers.length = st.lengthVisible + 1 - 1
    omega

theorem wf_removeCurrent (st : St) (h : WF st) : WF (RemoveCurrent st) := by
  have h' := h
  unfold WF at h'
  obtain ⟨h1, h2, h3, h4, h5, h6, h7, h8, h9⟩ := h'
  rcases hstk : st.stack with _ | ⟨s0, rest⟩
  · exfalso
    rw [hstk] at h1
    simp at h1
    omega
  · have hcur : s0.1 = st.current := by
      rw [hstk] at h9
      simpa using h9
    have hno : ∀ p ∈ rest, p.1 ≠ s0.1 := by
      rw [hstk] at h7
      simp only [List.map_cons] at h7
      have hnotin := (List.nodup_cons.mp h7).1
      intro p hp hpe
      exact hnotin (hpe ▸ List.mem_map_of_mem Prod.fst hp)
    by_cases hlen : 1 < st.buffers.length
    · obtain ⟨lastB, hlast⟩ := getLast?_some_of_ne_nil st.buffers
        (by intro hnil; rw [hnil] at h2; simp at h2)
      rw [removeCurrent_eq st s0 rest lastB hstk h6 hlast hlen (by omega) hno]
      set c2 : Nat := if st.lengthVisible - 1 ≤ st.current then st.lengthVisible - 2 else st.current with hc2
      set ST : St := { st with buffers := st.buffers.eraseIdx st.current, stack := rest.map (fun p => (if st.current < p.1 then p.1 - 1 else p.1, p.2)), lengthVisible := st.lengthVisible - 1, current := c2, stackcurrent := 0 } with hST
      have hc2lt : c2 < st.buffers.length - 1 := by
        rw [hc2]
        by_cases hcc : st.lengthVisible - 1 ≤ st.current
        · simp only [if_pos hcc]; omega
        · simp only [if_neg hcc]; omega
      have hrestlen : rest.length + 1 = st.buffers.length := by
        rw [hstk] at h1
        simpa using h1
      have herlen : (st.buffers.eraseIdx st.current).length = st.buffers.length - 1 :=
        eraseIdx_len st.buffers st.current h5
      have hcellsT : ∀ p ∈ ST.stack, p.1 < ST.buffers.length ∧ ST.buffers.getD p.1 0 = p.2 := by
        show ∀ p ∈ rest.map (fun p => (if st.current < p.1 then p.1 - 1 else p.1, p.2)),
          p.1 < (st.buffers.eraseIdx st.current).length ∧
          (st.buffers.eraseIdx st.current).getD p.1 0 = p.2
        intro p hp
        obtain ⟨p0, hp0, hpe⟩ := List.mem_map.mp hp
        obtain ⟨hb, hg⟩ := h8 p0 (by rw [hstk]; exact List.mem_cons_of_mem s0 hp0)
        have hne0 : p0.1 ≠ st.current := by
          rw [← hcur]
          exact hno p0 hp0
        subst hpe
        dsimp only
        rw [herlen]
        by_cases hlt : st.current < p0.1
        · simp only [if_pos hlt]
          exact ⟨by omega, by rw [getD_eraseIdx_ge st.buffers st.current p0.1 0 hlt hb]; exact hg⟩
        · simp only [if_neg hlt]
          exact ⟨by omega, by rw [getD_eraseIdx_lt st.buffers st.current p0.1 0 (by omega)]; exact hg⟩
      have hndT : (ST.stack.map Prod.fst).Nodup := by
        show ((rest.map (fun p => (if st.current < p.1 then p.1 - 1 else p.1, p.2))).map Prod.fst).Nodup
        rw [List.map_map]
        have heq : (Prod.fst ∘ fun p : Nat × Nat => (if st.current < p.1 then p.1 - 1 else p.1, p.2)) = (fun v => if st.current < v then v - 1 else v) ∘ Prod.fst := rfl
        rw [heq, ← List.map_map]
        have htl : (rest.map Prod.fst).Nodup := by
          rw [hstk] at h7
          simp only [List.map_cons] at h7
          exact (List.nodup_cons.mp h7).2
        refine List.Nodup.map_on ?_ htl
        intro u hu v hv heq2
        obtain ⟨pu, hpu, hpue⟩ := List.mem_map.mp hu
        obtain ⟨pv, hpv, hpve⟩ := List.mem_map.mp hv
        subst hpue
        subst hpve
        have h1u : pu.1 ≠ st.current := fun he => hno pu hpu (he.trans hcur.symm)
        have h1v : pv.1 ≠ st.current := fun he => hno pv hpv (he.trans hcur.symm)
        simp only [] at heq2
        split_ifs at heq2 <;> omega
      have hneT : ST.stack ≠ [] := by
        show rest.map (fun p => (if st.current < p.1 then p.1 - 1 else p.1, p.2)) ≠ []
        intro hnil
        have hl0 : rest.length = 0 := by
          have hl1 := congrArg List.length hnil
          simpa using hl1
        omega
      have hiT : c2 < ST.buffers.length := by
        show c2 < (st.buffers.eraseIdx st.current).length
        rw [herlen]
        exact hc2lt
      have hmts := mts_ok ST c2 hneT hcellsT hndT hiT
      have hf := mts_fields ST c2
      apply wf_mk
      · show (moveToStackTop ST c2).stack.length = (moveToStackTop ST c2).buffers.length
        rw [hmts.1, hf.1]
        show (rest.map (fun p => (if st.current < p.1 then p.1 - 1 else p.1, p.2))).length = (st.buffers.eraseIdx st.current).length
        rw [List.length_map, herlen]
        omega
      · show 1 ≤ (moveToStackTop ST c2).buffers.length
        rw [hf.1]
        show 1 ≤ (st.buffers.eraseIdx st.current).length
        rw [herlen]
        omega
      · show (moveToStackTop ST c2).buffers.length ≤ (moveToStackTop ST c2).size
        rw [hf.1, hf.2.2.2.2.1]
        show (st.buffers.eraseIdx st.current).length ≤ st.size
        rw [herlen]
        omega
      · show (moveToStackTop ST c2).lengthVisible = (moveToStackTop ST c2).buffers.length
        rw [hf.2.2.2.1, hf.1]
        show st.lengthVisible - 1 = (st.buffers.eraseIdx st.current).length
        rw [herlen]
        omega
      · show (moveToStackTop ST c2).current < (moveToStackTop ST c2).buffers.length
        rw [hf.2.1, hf.1]
        exact hiT
      · show (moveToStackTop ST c2).stackcurrent = 0
        rw [hf.2.2.1]
      · exact hmts.2.1
      · intro p hp
        have := hmts.2.2.1 p hp
        rw [hf.1]
        exact this
      · show ((moveToStackTop ST c2).stack.headD (0, 0)).1 = (moveToStackTop ST c2).current
        rw [hmts.2.2.2, hf.2.1]
    · have hlen1 : st.buffers.length = 1 := by omega
      rcases hbuf : st.buffers with _ | ⟨b0, tl⟩
      · rw [hbuf] at hlen1
        simp at hlen1
      · have htl : tl = [] := by
          rw [hbuf] at hlen1
          simp only [List.length_cons] at hlen1
          exact List.length_eq_zero.mp (by omega)
        subst htl
        have hrest : rest = [] := by
          rw [hstk, hbuf] at h1
          simp only [List.length_cons, List.length_nil] at h1
          exact List.length_eq_zero.mp (by omega)
        subst hrest
        have hc0 : st.current = 0 := by
          rw [hbuf] at h5
          simp only [List.length_cons, List.length_nil] at h5
          omega
        rw [removeCurrent_eq_one st b0 s0 hbuf (by rw [hstk]) hc0]
        apply wf_mk
        · rfl
        · show (1 : Nat) ≤ 1
          omega
        · show (1 : Nat) ≤ st.size
          rw [hbuf] at h3
          simpa using h3
        · show st.lengthVisible = 1
          rw [hbuf] at h4
          simpa using h4
        · show st.current < 1
          omega
        · exact h6
        · simp
        · intro p hp
          have hp2 : p = ((0 : Nat), st.nextId) := by simpa using hp
          subst hp2
          exact ⟨by simp, rfl⟩
        · show (0 : Nat) = st.current
          omega

theorem stepChecked_wf (st : St) (op : BOp) (st1 : St) (h : WF st)
    (hs : stepChecked st op = some st1) : WF st1 := by
  cases op with
  | add =>
    simp only [stepChecked] at hs
    by_cases hcap : st.buffers.length < st.size
    · rw [if_pos hcap] at hs
      have h2 := Option.some.inj hs
      rw [← h2]
      exact wf_add st h hcap
    · rw [if_neg hcap] at hs
      simp at hs
  | removeCurrent =>
    simp only [stepChecked] at hs
    have h2 := Option.some.inj hs
    rw [← h2]
    exact wf_removeCurrent st h

theorem runChecked_wf : ∀ (ops : List BOp) (st st1 : St), WF st →
    runChecked st ops = some st1 → WF st1 := by
  intro ops
  induction ops with
  | nil =>
    intro st st1 h hrun
    simp only [runChecked] at hrun
    have h2 := Option.some.inj hrun
    rw [← h2]
    exact h
  | cons op rest ih =>
    intro st st1 h hrun
    simp only [runChecked] at hrun
    cases hstep : stepChecked st op with
    | none => rw [hstep] at hrun; simp at hrun
    | some st2 =>
      rw [hstep] at hrun
      exact ih st2 st1 (stepChecked_wf st op st2 h hstep) hrun

end BL

/-- **C1** (counterexample to the raw claim): `BufferList::Add` alone does
not select the added slot — callers do.  Running the raw operations
`Add, Add, RemoveCurrent` from a one-buffer list leaves `current = 0`, so
`RemoveCurrent` removes slot 0 underneath MRU cells pushed for the slots
above it: after the remap the bottom cell indexes slot 0, which now holds a
different buffer, falsifying P1 for raw `Add`/`RemoveCurrent` sequences. -/
theorem c1_stack_remap_counterexample :
    ¬ BL.StackOk (BL.runRaw (BL.Allocate 3)
      [BL.BOp.add, BL.BOp.add, BL.BOp.removeCurrent]) := by decide

/-- **C1** (amended): under the discipline every caller in the source
obeys — `Add` only below capacity (`IsBufferAvailable`) and immediately
followed by `SetCurrent` of the added slot, as in `SciTEBase::New` — every
MRU-stack cell always indexes a live slot holding exactly the buffer it
was pushed for, after any `Add`/`RemoveCurrent` sequence: `RemoveCurrent`
compacts the slots above the removed one and decrements precisely the
cells whose index exceeds the removed index. -/
theorem c1_stack_remap_amended (n : Nat) (ops : List BL.BOp) (s : BL.St)
    (hn : 1 ≤ n) (hrun : BL.runChecked (BL.Allocate n) ops = some s) :
    BL.StackOk s :=
  (BL.runChecked_wf ops (BL.Allocate n) s (BL.wf_allocate n hn) hrun).2.2.2.2.2.2.2.1

/-- **C1** witness: a five-operation disciplined run on a three-slot list,
with its concrete result state. -/
theorem c1_stack_remap_witness :
    BL.StackOk ({ buffers := [0, 3], stack := [(1, 3), (0, 0)], current := 1, stackcurrent := 0, lengthVisible := 2, size := 3, nextId := 4 } : BL.St) :=
  c1_stack_remap_amended 3
    [BL.BOp.add, BL.BOp.add, BL.BOp.removeCurrent, BL.BOp.removeCurrent, BL.BOp.add]
    { buffers := [0, 3], stack := [(1, 3), (0, 0)], current := 1, stackcurrent := 0, lengthVisible := 2, size := 3, nextId := 4 }
    (by decide) (by decide)

/-! ## C9: Save is a lifecycle frame -/

namespace Io

theorem lifeMap_ev (e : Ev) (st : Ed) : lifeMap (Ed.ev e st) = lifeMap st := rfl

theorem lifeMap_msg (m : Msg) (st : Ed) : lifeMap (Ed.msg m st) = lifeMap st := rfl

theorem lifeMap_updCurrent (f : Buf → Buf) (st : Ed)
    (hf : ∀ b, (f b).lifeState = b.lifeState) :
    lifeMap (Ed.updCurrent f st) = lifeMap st :=
  lifeMap_updAt st.current f st hf

theorem lifeMap_attachStorer (wid : Nat) (vp : Bool) (p : Nat) (st : Ed) :
    lifeMap (Ed.updCurrent (Buf.attachStorer wid vp p) st) = lifeMap st :=
  lifeMap_updCurrent _ _ (fun _ => rfl)

theorem lifeMap_setTime (env : Env) (st : Ed) :
    lifeMap (Ed.updCurrent (fun b => Buf.setTimeFromFile (env.modTime b.fileId) b) st) =
      lifeMap st :=
  lifeMap_updCurrent _ _ (fun _ => rfl)

theorem lifeMap_failedSaveTrue (st : Ed) :
    lifeMap (Ed.updCurrent (fun b => { b with failedSave := true }) st) = lifeMap st :=
  lifeMap_updCurrent _ _ (fun _ => rfl)

theorem lifeMap_setFileName (p : Nat) (st : Ed) :
    lifeMap (setFileName p st) = lifeMap st :=
  lifeMap_updCurrent (fun b => { b with fileId := p, untitled := false })
    (Ed.ev .windowName (Ed.ev .readProperties
      { st with filePath := p, filePathUntitled := false })) (fun _ => rfl)

theorem lifeMap_ite (c : Prop) [Decidable c] (a b : Ed) :
    lifeMap (if c then a else b) = if c then lifeMap a else lifeMap b := by
  by_cases h : c <;> simp [h]

theorem snd_ite (c : Prop) [Decidable c] (a b : Bool × Ed) :
    (if c then a else b).2 = if c then a.2 else b.2 := by
  by_cases h : c <;> simp [h]

theorem state_ite (c : Prop) [Decidable c] (a b : SaveOutcome) :
    (if c then a else b).state = if c then a.state else b.state := by
  by_cases h : c <;> simp [h]

theorem state_done (r : Bool) (st : Ed) : (SaveOutcome.done r st).state = st := rfl

theorem state_dialogRetry (st : Ed) : (SaveOutcome.dialogRetry st).state = st := rfl

theorem state_dialogUntitled (st : Ed) : (SaveOutcome.dialogUntitled st).state = st := rfl

set_option maxRecDepth 8192 in
theorem lifeMap_saveBuffer (env : Env) (sf : Nat) (st : Ed) :
    lifeMap (SaveBuffer env sf st).2 = lifeMap st := by
  unfold SaveBuffer prepareBufferForSave
  simp [snd_ite, lifeMap_ite, lifeMap_ev, lifeMap_msg, lifeMap_attachStorer]

set_option maxRecDepth 8192 in
theorem lifeMap_saveCore (env : Env) (sf : Nat) (st : Ed) :
    lifeMap (SaveCore env sf st).state = lifeMap st := by
  unfold SaveCore
  simp [snd_ite, state_ite, lifeMap_ite, state_done, state_dialogRetry,
    state_dialogUntitled, lifeMap_ev, lifeMap_msg, lifeMap_saveBuffer,
    lifeMap_setTime, lifeMap_failedSaveTrue]

theorem lifeMap_save (env : Env) : ∀ (fuel sf : Nat) (st : Ed),
    lifeMap (Save env fuel sf st).2 = lifeMap st := by
  intro fuel
  induction fuel with
  | zero =>
    intro sf st
    have hc := lifeMap_saveCore env sf st
    rw [Save]
    cases h : SaveCore env sf st with
    | done r st1 =>
      rw [h] at hc
      simpa [SaveOutcome.state] using hc
    | dialogRetry st1 =>
      rw [h] at hc
      simpa [SaveOutcome.state] using hc
    | dialogUntitled st1 =>
      rw [h] at hc
      simpa [SaveOutcome.state, lifeMap] using hc
  | succ f ih =>
    intro sf st
    have hc := lifeMap_saveCore env sf st
    rw [Save]
    cases h : SaveCore env sf st with
    | done r st1 =>
      rw [h] at hc
      simpa [SaveOutcome.state] using hc
    | dialogRetry st1 =>
      rw [h] at hc
      simp only [SaveOutcome.state] at hc
      cases hd : env.dialogPath (f + 1) with
      | none => simpa using hc
      | some p =>
        simp only [lifeMap_ev]
        rw [ih, lifeMap_setFileName]
        exact hc
    | dialogUntitled st1 =>
      rw [h] at hc
      simp only [SaveOutcome.state] at hc
      cases hd : env.dialogPath (f + 1) with
      | none => simpa [lifeMap] using hc
      | some p =>
        simp only [lifeMap_ev]
        rw [ih, lifeMap_setFileName]
        exact hc

end Io

/-- **C9**: `Save`/`SaveBuffer` never change any buffer's lifecycle state:
called on a controller whose current buffer is `kOpen`, the per-slot list
of lifecycle states after the call (any fuel, any `SaveFlags`) is exactly
the list before it — the save path only attaches the storing worker and
touches the dirty/time/failed-save fields. -/
theorem c9_save_lifecycle_frame (env : Io.Env) (fuel sf : Nat) (st : Io.Ed)
    (h : (Io.Ed.currentBuffer st).lifeState = Io.Life.kOpen) :
    Io.lifeMap (Io.Save env fuel sf st).2 = Io.lifeMap st ∧
    Io.lifeMap (Io.SaveBuffer env sf st).2 = Io.lifeMap st :=
  ⟨Io.lifeMap_save env fuel sf st, Io.lifeMap_saveBuffer env sf st⟩

/-- **C9** witness: a concrete synchronous-capable run on the one-buffer
fixture. -/
theorem c9_save_lifecycle_frame_witness :
    Io.lifeMap (Io.Save Io.sampleEnv 2 0 Io.edC8).2 = Io.lifeMap Io.edC8 ∧
    Io.lifeMap (Io.SaveBuffer Io.sampleEnv 0 Io.edC8).2 = Io.lifeMap Io.edC8 :=
  c9_save_lifecycle_frame Io.sampleEnv 2 0 Io.edC8 (by decide)

end CuteText
